import Mathlib

/-!
# NoctFS — a verification development

Shallow embedding of the NoctFS on-disk filesystem (`src/lib.rs`,
`src/entity.rs`, `src/bootsector.rs`) and proofs about its chainmap
allocator, chain I/O, directory engine, entity codec and boot sector.

Modelling conventions:

* Machine integers (`u64` block addresses and chainmap entries, `u32`
  counts, byte values) are `Nat`; wrap-around is irrelevant on the paths
  modelled and noted where the source could overflow.
* The device is a byte map `Nat → Nat` (absolute byte offset ↦ byte).
  The chainmap region `[sector_size, sector_size + 8*block_map_count)`
  is abstracted into the field `map : Nat → Nat`: the source accesses it
  only through `get_block`/`write_block`, which read/write one
  little-endian `u64` at `sector_size + 8*nr`, so entry `nr` of `map`
  stands for exactly those 8 device bytes.
* Rust panics (`unwrap` of `None`, `usize` subtraction overflow, slice
  index out of bounds) are modelled as `Option.none` results.
* Rust loops with no structural bound (`get_chain`, `free_blocks`, the
  directory scans) take a fuel argument; the fuel chosen exceeds the
  number of iterations of every terminating execution, and theorems
  only draw conclusions on inputs where the source loop terminates.
-/

namespace NoctFS

/-- Chain terminator / reserved sentinel `0xFFFF_FFFF_FFFF_FFFF`. -/
def END_SENTINEL : Nat := 0xFFFFFFFFFFFFFFFF

/-- Filesystem state: boot-sector geometry (immutable after mount),
the chainmap (entry `nr` = the little-endian u64 at device offset
`sector_size + 8*nr`), and the rest of the device as a byte map. -/
structure Fs where
  sector_size : Nat
  block_size : Nat
  count : Nat        -- `bootsector.block_map_count`
  map : Nat → Nat    -- chainmap entries
  dev : Nat → Nat    -- device bytes (used for the data zone)

/-- `NoctFS::get_block`: `None` when out of range, else the entry. -/
def get_block (fs : Fs) (nr : Nat) : Option Nat :=
  if nr < fs.count then some (fs.map nr) else none

/-- `NoctFS::write_block`: no-op when out of range, else store the value. -/
def write_block (fs : Fs) (nr v : Nat) : Fs :=
  if nr < fs.count then { fs with map := fun a => if a = nr then v else fs.map a } else fs

/-- Scan `i, i+1, ...` for the first entry equal to 0; `fuel` bounds the
number of probes (`find_block` supplies `fs.count`, covering the whole
`for i in 0..block_map_count` loop). -/
def findFrom (fs : Fs) : Nat → Nat → Option Nat
  | _, 0 => none
  | i, fuel + 1 =>
    if i < fs.count then
      (if fs.map i = 0 then some i else findFrom fs (i + 1) fuel)
    else none

/-- `NoctFS::find_block`: linear first-fit scan from index 0. -/
def find_block (fs : Fs) : Option Nat := findFrom fs 0 fs.count

/-- The `for _ in 0..count` loop body of `allocate_blocks`:
find a free block (unwrap — panic when none), link it after `previous`
(unwrap — panic when `previous` is `None`), mark it END. -/
def allocLoop : Fs → Option Nat → Nat → Option (Option Nat × Fs)
  | fs, previous, 0 => some (previous, fs)
  | fs, previous, m + 1 =>
    match find_block fs with
    | none => none
    | some new_block =>
      match previous with
      | none => none
      | some p =>
        allocLoop (write_block (write_block fs p new_block) new_block END_SENTINEL)
          (some new_block) m

/-- `NoctFS::allocate_blocks`. Returns `none` on a panic, otherwise
`some (returned Option<BlockAddress>, new state)`. -/
def allocate_blocks (fs : Fs) (count : Nat) : Option (Option Nat × Fs) :=
  if count = 0 then some (none, fs)
  else
    match allocLoop fs (find_block fs) count with
    | none => none
    | some (previous, fs') =>
      match previous with
      | none => none
      | some p => some (find_block fs, write_block fs' p END_SENTINEL)

/-- The `while let Some(block) = get_block(current)` walk of `get_chain`,
with fuel. The Rust loop has no bound and diverges on a cyclic chainmap;
`get_chain` passes `count + 1` fuel, which exceeds the length of every
terminating walk (a terminating walk visits distinct in-range blocks). -/
def get_chain_fuel (fs : Fs) : Nat → Nat → List Nat
  | _, 0 => []
  | current, fuel + 1 =>
    match get_block fs current with
    | none => []
    | some b => current :: get_chain_fuel fs b fuel

/-- `NoctFS::get_chain`: collect visited block indices until the lookup
goes out of range (the END sentinel exceeds `count`). -/
def get_chain (fs : Fs) (start_block : Nat) : List Nat :=
  get_chain_fuel fs start_block (fs.count + 1)

/-- The `free_blocks` walk: zero the entry at each visited block, stop
after zeroing the block whose successor was END. Fueled like `get_chain`. -/
def free_loop : Fs → Nat → Nat → Fs
  | fs, _, 0 => fs
  | fs, current, fuel + 1 =>
    match get_block fs current with
    | none => fs
    | some block =>
      if block = END_SENTINEL then write_block fs current 0
      else free_loop (write_block fs current 0) block fuel

/-- `NoctFS::free_blocks`: no-op for `start_block == 0`. -/
def free_blocks (fs : Fs) (start_block : Nat) : Fs :=
  if start_block = 0 then fs else free_loop fs start_block (fs.count + 1)

/-- `NoctFS::extend_chain_by`: `none` models the panics
(`chain.last().unwrap()` on an empty walk, `allocate_blocks(..).unwrap()`). -/
def extend_chain_by (fs : Fs) (start_block : Nat) (count : Nat) : Option Fs :=
  let chain := get_chain fs start_block
  match chain.getLast? with
  | none => none
  | some last =>
    match allocate_blocks fs count with
    | none => none
    | some (allocated?, fs') =>
      match allocated? with
      | none => none
      | some allocated => some (write_block fs' last allocated)

/-- Zero the chainmap entry of each listed block in order
(the `for i in &work_area[1..]` loop of `shrink_chain_by`). -/
def writeZeros : Fs → List Nat → Fs
  | fs, [] => fs
  | fs, i :: rest => writeZeros (write_block fs i 0) rest

/-- `NoctFS::shrink_chain_by`. The source slices
`&chain[chain.len() - count - 1 ..]`; when `count == chain.len()` the
`usize` expression `chain.len() - count - 1` overflows (panic), modelled
by the `chain.length = count` branch returning `none`. -/
def shrink_chain_by (fs : Fs) (start_block : Nat) (count : Nat) : Option Fs :=
  let chain := get_chain fs start_block
  if count = 0 then some fs
  else if chain.length < count then some fs
  else if chain.length = count then none
  else
    match chain.drop (chain.length - count - 1) with
    | [] => none
    | w0 :: ws => some (writeZeros (write_block fs w0 END_SENTINEL) ws)

/-- `NoctFS::set_chain_size`. -/
def set_chain_size (fs : Fs) (start_block : Nat) (count : Nat) : Option Fs :=
  let chain_length := (get_chain fs start_block).length
  if chain_length = count then some fs
  else if count < chain_length then shrink_chain_by fs start_block (chain_length - count)
  else extend_chain_by fs start_block (count - chain_length)

/-- Number of free (value 0) chainmap entries. -/
def freeCount (fs : Fs) : Nat :=
  ((Finset.range fs.count).filter (fun i => fs.map i = 0)).card

/-! ## Basic state lemmas -/

@[simp] lemma write_block_count (fs : Fs) (nr v : Nat) :
    (write_block fs nr v).count = fs.count := by
  unfold write_block; split <;> rfl

@[simp] lemma write_block_dev (fs : Fs) (nr v : Nat) :
    (write_block fs nr v).dev = fs.dev := by
  unfold write_block; split <;> rfl

@[simp] lemma write_block_sector_size (fs : Fs) (nr v : Nat) :
    (write_block fs nr v).sector_size = fs.sector_size := by
  unfold write_block; split <;> rfl

@[simp] lemma write_block_block_size (fs : Fs) (nr v : Nat) :
    (write_block fs nr v).block_size = fs.block_size := by
  unfold write_block; split <;> rfl

lemma write_block_map (fs : Fs) (nr v : Nat) (h : nr < fs.count) (a : Nat) :
    (write_block fs nr v).map a = if a = nr then v else fs.map a := by
  unfold write_block; rw [if_pos h]

lemma write_block_map_self (fs : Fs) (nr v : Nat) (h : nr < fs.count) :
    (write_block fs nr v).map nr = v := by
  rw [write_block_map fs nr v h, if_pos rfl]

lemma write_block_map_other (fs : Fs) (nr v : Nat) (h : nr < fs.count) (a : Nat)
    (ha : a ≠ nr) : (write_block fs nr v).map a = fs.map a := by
  rw [write_block_map fs nr v h, if_neg ha]

lemma END_SENTINEL_ne_zero : END_SENTINEL ≠ 0 := by decide

lemma END_SENTINEL_eq : END_SENTINEL = 2 ^ 64 - 1 := by decide

/-! ## `findFrom` / `find_block` specifications -/

lemma findFrom_some (fs : Fs) :
    ∀ fuel i j, findFrom fs i fuel = some j →
      i ≤ j ∧ j < fs.count ∧ fs.map j = 0 ∧ ∀ k, i ≤ k → k < j → fs.map k ≠ 0 := by
  intro fuel
  induction fuel with
  | zero => intro i j h; simp [findFrom] at h
  | succ n ih =>
    intro i j h
    unfold findFrom at h
    by_cases hi : i < fs.count
    · rw [if_pos hi] at h
      by_cases hz : fs.map i = 0
      · rw [if_pos hz] at h
        cases h
        exact ⟨le_refl _, hi, hz, fun k hk1 hk2 => absurd (lt_of_le_of_lt hk1 hk2) (lt_irrefl _)⟩
      · rw [if_neg hz] at h
        obtain ⟨h1, h2, h3, h4⟩ := ih (i + 1) j h
        refine ⟨by omega, h2, h3, fun k hk1 hk2 => ?_⟩
        by_cases hk : k = i
        · subst hk; exact hz
        · exact h4 k (by omega) hk2
    · rw [if_neg hi] at h; cases h

lemma findFrom_isSome (fs : Fs) :
    ∀ fuel i j, i ≤ j → j < fs.count → j < i + fuel → fs.map j = 0 →
      (findFrom fs i fuel).isSome := by
  intro fuel
  induction fuel with
  | zero => intro i j h1 h2 h3 _; omega
  | succ n ih =>
    intro i j h1 h2 h3 hz
    unfold findFrom
    have hi : i < fs.count := lt_of_le_of_lt h1 h2
    rw [if_pos hi]
    by_cases hiz : fs.map i = 0
    · rw [if_pos hiz]; rfl
    · rw [if_neg hiz]
      have hij : i ≠ j := fun h => hiz (h ▸ hz)
      exact ih (i + 1) j (by omega) h2 (by omega) hz

lemma find_block_some (fs : Fs) (j : Nat) (h : find_block fs = some j) :
    j < fs.count ∧ fs.map j = 0 ∧ ∀ k, k < j → fs.map k ≠ 0 := by
  obtain ⟨_, h2, h3, h4⟩ := findFrom_some fs fs.count 0 j h
  exact ⟨h2, h3, fun k hk => h4 k (Nat.zero_le k) hk⟩

lemma find_block_isSome_of_free (fs : Fs) (j : Nat) (hj : j < fs.count)
    (hz : fs.map j = 0) : (find_block fs).isSome :=
  findFrom_isSome fs fs.count 0 j (Nat.zero_le j) hj (by omega) hz

lemma freeCount_pos_iff (fs : Fs) :
    0 < freeCount fs ↔ ∃ j, j < fs.count ∧ fs.map j = 0 := by
  unfold freeCount
  rw [Finset.card_pos]
  constructor
  · rintro ⟨j, hj⟩
    rw [Finset.mem_filter, Finset.mem_range] at hj
    exact ⟨j, hj.1, of_decide_eq_true (by simpa using hj.2)⟩
  · rintro ⟨j, hj1, hj2⟩
    exact ⟨j, by simp [Finset.mem_filter, Finset.mem_range, hj1, hj2]⟩

lemma find_block_isSome_of_freeCount (fs : Fs) (h : 0 < freeCount fs) :
    (find_block fs).isSome := by
  obtain ⟨j, hj1, hj2⟩ := (freeCount_pos_iff fs).1 h
  exact find_block_isSome_of_free fs j hj1 hj2

lemma find_block_none_of_freeCount (fs : Fs) (h : freeCount fs = 0) :
    find_block fs = none := by
  cases hfb : find_block fs with
  | none => rfl
  | some j =>
    obtain ⟨hj1, hj2, _⟩ := find_block_some fs j hfb
    have := (freeCount_pos_iff fs).2 ⟨j, hj1, hj2⟩
    omega

lemma find_block_zero (fs : Fs) (h0 : fs.map 0 = 0) (hc : 0 < fs.count) :
    find_block fs = some 0 := by
  have hs := find_block_isSome_of_free fs 0 hc h0
  cases hfb : find_block fs with
  | none => rw [hfb] at hs; simp at hs
  | some j =>
    obtain ⟨_, _, hmin⟩ := find_block_some fs j hfb
    by_cases hj : j = 0
    · rw [hj]
    · exact absurd h0 (hmin 0 (by omega))

end NoctFS

namespace NoctFS

/-! ## Valid chains

`ChainShape fs start l` says `l` is the terminating chainmap walk from
`start`: it begins at `start`, stays inside the chainmap, visits no
block twice, each entry points at the next element, and the last entry
is the END sentinel (spec §3, invariant I1). -/

def ChainShape (fs : Fs) (start : Nat) (l : List Nat) : Prop :=
  l.head? = some start ∧ (∀ a ∈ l, a < fs.count) ∧ l.Nodup ∧
    List.Chain' (fun a b => fs.map a = b) (l ++ [END_SENTINEL])

/-- Executable check of the successor links, used only for deciding
`ChainShape` on concrete inputs. -/
def chainLinksB (m : Nat → Nat) : List Nat → Bool
  | [] => true
  | [_] => true
  | a :: b :: rest => (m a == b) && chainLinksB m (b :: rest)

lemma chainLinksB_iff (m : Nat → Nat) : ∀ l : List Nat,
    (chainLinksB m l = true) ↔ List.Chain' (fun a b => m a = b) l := by
  intro l
  induction l with
  | nil => simp [chainLinksB]
  | cons a tl ih =>
    cases tl with
    | nil => simp [chainLinksB]
    | cons b rest =>
      rw [chainLinksB, Bool.and_eq_true, beq_iff_eq, List.chain'_cons]
      exact and_congr Iff.rfl ih

instance (fs : Fs) (start : Nat) (l : List Nat) : Decidable (ChainShape fs start l) :=
  decidable_of_iff (l.head? = some start ∧ (∀ a ∈ l, a < fs.count) ∧ l.Nodup ∧
    chainLinksB fs.map (l ++ [END_SENTINEL]) = true)
    (and_congr Iff.rfl (and_congr Iff.rfl (and_congr Iff.rfl
      (chainLinksB_iff fs.map (l ++ [END_SENTINEL])))))

lemma nodup_length_le (l : List Nat) (n : Nat) (hnd : l.Nodup)
    (hlt : ∀ a ∈ l, a < n) : l.length ≤ n := by
  have hsub : l.toFinset ⊆ Finset.range n := by
    intro a ha
    rw [List.mem_toFinset] at ha
    exact Finset.mem_range.2 (hlt a ha)
  have := Finset.card_le_card hsub
  rwa [List.toFinset_card_of_nodup hnd, Finset.card_range] at this

lemma get_chain_fuel_oob (fs : Fs) (current fuel : Nat) (h : fs.count ≤ current) :
    get_chain_fuel fs current fuel = [] := by
  cases fuel with
  | zero => rfl
  | succ n =>
    unfold get_chain_fuel get_block
    rw [if_neg (by omega)]

lemma get_chain_fuel_succ (fs : Fs) (current f : Nat) (h : current < fs.count) :
    get_chain_fuel fs current (f + 1) = current :: get_chain_fuel fs (fs.map current) f := by
  rw [get_chain_fuel, get_block, if_pos h]

lemma get_chain_fuel_eq (fs : Fs) (hEnd : fs.count ≤ END_SENTINEL) :
    ∀ (l : List Nat) (current fuel : Nat), l.head? = some current →
      (∀ a ∈ l, a < fs.count) →
      List.Chain' (fun a b => fs.map a = b) (l ++ [END_SENTINEL]) →
      l.length ≤ fuel →
      get_chain_fuel fs current fuel = l := by
  intro l
  induction l with
  | nil => intro current fuel h; simp at h
  | cons a tl ih =>
    intro current fuel hhead hlt hchain hfuel
    have hca : current = a := by simpa using hhead.symm
    subst hca
    obtain ⟨f, rfl⟩ : ∃ f, fuel = f + 1 := ⟨fuel - 1, by simp at hfuel ⊢; omega⟩
    have hac : current < fs.count := hlt current (by simp)
    rw [get_chain_fuel_succ fs current f hac]
    rw [List.cons_append, List.chain'_cons'] at hchain
    obtain ⟨hrel, htail⟩ := hchain
    cases tl with
    | nil =>
      have hmap : fs.map current = END_SENTINEL := hrel END_SENTINEL (by simp)
      rw [hmap, get_chain_fuel_oob fs END_SENTINEL f hEnd]
    | cons b tl' =>
      have hmap : fs.map current = b := hrel b (by simp)
      rw [hmap]
      rw [ih b f (by simp) (fun x hx => hlt x (by simp [hx])) htail
        (by simp at hfuel ⊢; omega)]

lemma ChainShape.get_chain_eq {fs : Fs} {start : Nat} {l : List Nat}
    (h : ChainShape fs start l) (hEnd : fs.count ≤ END_SENTINEL) :
    get_chain fs start = l := by
  obtain ⟨h1, h2, h3, h4⟩ := h
  exact get_chain_fuel_eq fs hEnd l start (fs.count + 1) h1 h2 h4
    (le_trans (nodup_length_le l fs.count h3 h2) (by omega))

/-- Transfer a `Chain'` of successor links to a map that agrees on every
element that has a successor (every element but the last). -/
lemma chain'_ext (m1 m2 : Nat → Nat) :
    ∀ (l : List Nat), (∀ a ∈ l.dropLast, m1 a = m2 a) →
      List.Chain' (fun a b => m1 a = b) l → List.Chain' (fun a b => m2 a = b) l := by
  intro l
  induction l with
  | nil => intro _ _; exact List.chain'_nil
  | cons a tl ih =>
    intro hagree hchain
    cases tl with
    | nil => exact List.chain'_singleton a
    | cons b tl' =>
      rw [List.chain'_cons] at hchain ⊢
      have ha : a ∈ (a :: b :: tl').dropLast := by
        rw [List.dropLast_cons₂]; simp
      refine ⟨(hagree a ha).symm.trans hchain.1, ih ?_ hchain.2⟩
      intro x hx
      refine hagree x ?_
      rw [List.dropLast_cons₂]
      simp [hx]

/-- Every element of a chain has a successor in the chain or the sentinel. -/
lemma chain_member_succ {m : Nat → Nat} (e : Nat) :
    ∀ (l : List Nat), List.Chain' (fun a b => m a = b) (l ++ [e]) →
      ∀ a ∈ l, m a = e ∨ ∃ b ∈ l, m a = b := by
  intro l
  induction l with
  | nil => intro _ a ha; simp at ha
  | cons x tl ih =>
    intro hchain a ha
    rw [List.cons_append] at hchain
    rcases List.mem_cons.1 ha with rfl | hmem
    · cases tl with
      | nil =>
        left; simpa using hchain
      | cons b tl' =>
        right
        rw [List.cons_append, List.chain'_cons] at hchain
        exact ⟨b, by simp, hchain.1⟩
    · have htail : List.Chain' (fun a b => m a = b) (tl ++ [e]) := by
        rw [List.chain'_cons'] at hchain
        exact hchain.2
      rcases ih htail a hmem with h | ⟨b, hb1, hb2⟩
      · left; exact h
      · right; exact ⟨b, by simp [hb1], hb2⟩

/-- In a chain avoiding block 0 every visited entry is nonzero, so the
chain is invisible to the first-fit free-block scan. -/
lemma ChainShape.map_ne_zero {fs : Fs} {start : Nat} {l : List Nat}
    (h : ChainShape fs start l) (h0 : ∀ a ∈ l, a ≠ 0) :
    ∀ a ∈ l, fs.map a ≠ 0 := by
  intro a ha
  rcases chain_member_succ END_SENTINEL l h.2.2.2 a ha with he | ⟨b, hb1, hb2⟩
  · rw [he]; exact END_SENTINEL_ne_zero
  · rw [hb2]; exact h0 b hb1

lemma get_chain_ne_nil (fs : Fs) (start : Nat) (h : start < fs.count) :
    get_chain fs start ≠ [] := by
  unfold get_chain get_chain_fuel
  rw [show get_block fs start = some (fs.map start) from if_pos h]
  simp

end NoctFS

namespace NoctFS

/-! ## Allocator loop invariant

`AllocInv s t l`: starting from state `s`, the allocator has so far
claimed the blocks `l` (in order). All claimed blocks were free in `s`;
in the current state `t` they are linked into a chain ending in END, no
other entry changed, and the set of free entries is the free set of `s`
minus `l`. -/

def AllocInv (s t : Fs) (l : List Nat) : Prop :=
  t.count = s.count ∧ t.sector_size = s.sector_size ∧ t.block_size = s.block_size ∧
  t.dev = s.dev ∧ l ≠ [] ∧ l.Nodup ∧
  (∀ a ∈ l, a < s.count ∧ s.map a = 0) ∧
  (∀ a, t.map a = 0 ↔ (s.map a = 0 ∧ a ∉ l)) ∧
  (∀ a, a ∉ l → t.map a = s.map a) ∧
  List.Chain' (fun a b => t.map a = b) (l ++ [END_SENTINEL]) ∧
  (s.map 0 = 0 → 0 ∈ l)

lemma freeCount_pred (t t2 : Fs) (nb : Nat) (hc : t2.count = t.count)
    (hnb : nb < t.count) (hnbz : t.map nb = 0)
    (hchar : ∀ a, t2.map a = 0 ↔ (t.map a = 0 ∧ a ≠ nb)) :
    freeCount t2 + 1 = freeCount t := by
  unfold freeCount
  rw [hc]
  have hmemnb : nb ∈ (Finset.range t.count).filter (fun i => t.map i = 0) := by
    simp [Finset.mem_filter, Finset.mem_range, hnb, hnbz]
  have hset : (Finset.range t.count).filter (fun i => t2.map i = 0)
      = ((Finset.range t.count).filter (fun i => t.map i = 0)).erase nb := by
    ext a
    simp only [Finset.mem_filter, Finset.mem_erase, Finset.mem_range, hchar a]
    tauto
  rw [hset, Finset.card_erase_of_mem hmemnb]
  have hpos : 0 < ((Finset.range t.count).filter (fun i => t.map i = 0)).card :=
    Finset.card_pos.2 ⟨nb, hmemnb⟩
  omega

lemma alloc_step (s t : Fs) (l : List Nat) (p nb : Nat)
    (hinv : AllocInv s t l) (hlast : l.getLast? = some p) (hfind : find_block t = some nb) :
    AllocInv s (write_block (write_block t p nb) nb END_SENTINEL) (l ++ [nb]) ∧
      (l ++ [nb]).getLast? = some nb ∧
      freeCount (write_block (write_block t p nb) nb END_SENTINEL) + 1 = freeCount t := by
  obtain ⟨hcnt, hss, hbs, hdev, hne, hnd, hmem, hchar, hframe, hchain, hzero⟩ := hinv
  obtain ⟨hnb_lt_t, hnb_free, -⟩ := find_block_some t nb hfind
  have hnb_lt : nb < s.count := hcnt ▸ hnb_lt_t
  have hdl : l.dropLast ++ [p] = l := List.dropLast_append_getLast? p hlast
  have hp_mem : p ∈ l := by rw [← hdl]; simp
  have hp_lt : p < s.count := (hmem p hp_mem).1
  have hp_lt_t : p < t.count := hcnt ▸ hp_lt
  have hnb_s : s.map nb = 0 ∧ nb ∉ l := (hchar nb).1 hnb_free
  have hnb_notin : nb ∉ l := hnb_s.2
  have hpnb : p ≠ nb := fun h => hnb_notin (h ▸ hp_mem)
  have hnb_ne_zero : nb ≠ 0 := by
    intro h
    exact hnb_notin (h ▸ hzero (h ▸ hnb_s.1))
  have hp_not_dl : p ∉ l.dropLast := by
    intro hp
    have hnd' : (l.dropLast ++ [p]).Nodup := by rw [hdl]; exact hnd
    exact (List.nodup_append.1 hnd').2.2 hp (by simp)
  have ht2map : ∀ a, (write_block (write_block t p nb) nb END_SENTINEL).map a
      = if a = nb then END_SENTINEL else if a = p then nb else t.map a := by
    intro a
    rw [write_block_map _ nb END_SENTINEL (by simpa using hnb_lt_t)]
    by_cases h1 : a = nb
    · rw [if_pos h1, if_pos h1]
    · rw [if_neg h1, if_neg h1, write_block_map t p nb hp_lt_t]
  have hchar2 : ∀ a, (write_block (write_block t p nb) nb END_SENTINEL).map a = 0
      ↔ (t.map a = 0 ∧ a ≠ nb) := by
    intro a
    rw [ht2map a]
    by_cases h1 : a = nb
    · simp [h1, END_SENTINEL_ne_zero]
    · rw [if_neg h1]
      by_cases h2 : a = p
      · subst h2
        simp only [if_pos rfl]
        constructor
        · intro h; exact absurd h hnb_ne_zero
        · intro h
          have := (hchar a).1 h.1
          exact absurd hp_mem this.2
      · simp [h2, h1]
  refine ⟨⟨by simp [hcnt], by simp [hss], by simp [hbs], by simp [hdev], by simp,
    ?_, ?_, ?_, ?_, ?_, ?_⟩, by simp, ?_⟩
  · -- Nodup (l ++ [nb])
    rw [List.nodup_append]
    refine ⟨hnd, List.nodup_singleton nb, fun a ha hb => ?_⟩
    have hab : a = nb := by simpa using hb
    subst hab
    exact hnb_notin ha
  · -- membership facts
    intro a ha
    rcases List.mem_append.1 ha with h | h
    · exact hmem a h
    · have hab : a = nb := by simpa using h
      subst hab
      exact ⟨hnb_lt, hnb_s.1⟩
  · -- free characterisation w.r.t. s
    intro a
    rw [hchar2 a, hchar a]
    simp only [List.mem_append, List.mem_singleton]
    tauto
  · -- frame
    intro a ha
    rw [List.mem_append] at ha
    push_neg at ha
    have hanb : ¬ a = nb := by simpa using ha.2
    have hap : ¬ a = p := by
      intro h
      subst h
      exact ha.1 hp_mem
    rw [ht2map a, if_neg hanb, if_neg hap, hframe a ha.1]
  · -- chain links
    rw [List.append_assoc]
    refine List.Chain'.append ?_ ?_ ?_
    · refine chain'_ext t.map _ l ?_ (List.Chain'.left_of_append hchain)
      intro a ha
      have hal : a ∈ l := List.dropLast_subset l ha
      have hanb : ¬ a = nb := by
        intro h; subst h; exact hnb_notin hal
      have hap : ¬ a = p := by
        intro h; subst h; exact hp_not_dl ha
      rw [ht2map a, if_neg hanb, if_neg hap]
    · rw [List.singleton_append, List.chain'_cons]
      exact ⟨by rw [ht2map nb, if_pos rfl], List.chain'_singleton _⟩
    · intro x hx y hy
      rw [hlast] at hx
      have hx' : p = x := by simpa using hx
      have hy' : nb = y := by simpa using hy
      rw [← hx', ← hy', ht2map p, if_neg hpnb, if_pos rfl]
  · -- block 0 tracking
    intro h0
    exact List.mem_append.2 (Or.inl (hzero h0))
  · -- free count decreases by one
    exact freeCount_pred t _ nb (by simp [hcnt]) hnb_lt_t hnb_free hchar2

end NoctFS

namespace NoctFS

lemma AllocInv_congr (s t t2 : Fs) (l : List Nat) (hinv : AllocInv s t l)
    (hmap : ∀ a, t2.map a = t.map a) (hc : t2.count = t.count)
    (hss : t2.sector_size = t.sector_size) (hbs : t2.block_size = t.block_size)
    (hdev : t2.dev = t.dev) : AllocInv s t2 l := by
  obtain ⟨h1, h2, h3, h4, h5, h6, h7, h8, h9, h10, h11⟩ := hinv
  refine ⟨hc.trans h1, hss.trans h2, hbs.trans h3, hdev.trans h4, h5, h6, h7,
    fun a => (by rw [hmap a]; exact h8 a), fun a ha => (hmap a).trans (h9 a ha), ?_, h11⟩
  exact chain'_ext t.map t2.map _ (fun a _ => (hmap a).symm) h10

lemma allocLoop_ok (s : Fs) :
    ∀ (m : Nat) (t : Fs) (l : List Nat) (p : Nat),
      AllocInv s t l → l.getLast? = some p → m ≤ freeCount t →
      ∃ r t' p', allocLoop t (some p) m = some (some p', t') ∧
        AllocInv s t' (l ++ r) ∧ (l ++ r).getLast? = some p' ∧ r.length = m := by
  intro m
  induction m with
  | zero =>
    intro t l p hinv hlast _
    exact ⟨[], t, p, rfl, by simpa using hinv, by simpa using hlast, rfl⟩
  | succ n ih =>
    intro t l p hinv hlast hfree
    have hpos : 0 < freeCount t := by omega
    obtain ⟨nb, hnb⟩ := Option.isSome_iff_exists.1 (find_block_isSome_of_freeCount t hpos)
    obtain ⟨hinv2, hlast2, hfc⟩ := alloc_step s t l p nb hinv hlast hnb
    obtain ⟨r, t', p', hloop, hinv', hlast', hlen⟩ :=
      ih _ (l ++ [nb]) nb hinv2 hlast2 (by omega)
    refine ⟨nb :: r, t', p', ?_, ?_, ?_, by simp [hlen]⟩
    · simp only [allocLoop, hnb]
      exact hloop
    · have : l ++ [nb] ++ r = l ++ nb :: r := by simp
      rwa [this] at hinv'
    · have : l ++ [nb] ++ r = l ++ nb :: r := by simp
      rwa [this] at hlast'

lemma allocLoop_panic (s : Fs) :
    ∀ (m : Nat) (t : Fs) (l : List Nat) (p : Nat),
      AllocInv s t l → l.getLast? = some p → freeCount t < m →
      allocLoop t (some p) m = none := by
  intro m
  induction m with
  | zero => intro t l p _ _ h; omega
  | succ n ih =>
    intro t l p hinv hlast hfree
    by_cases hfc : freeCount t = 0
    · have hnone := find_block_none_of_freeCount t hfc
      simp [allocLoop, hnone]
    · have hpos : 0 < freeCount t := by omega
      obtain ⟨nb, hnb⟩ := Option.isSome_iff_exists.1 (find_block_isSome_of_freeCount t hpos)
      obtain ⟨hinv2, hlast2, hfc2⟩ := alloc_step s t l p nb hinv hlast hnb
      simp only [allocLoop, hnb]
      exact ih _ (l ++ [nb]) nb hinv2 hlast2 (by omega)

/-- After the first loop iteration of `allocate_blocks` (which re-finds
the head block `H`, self-links it and immediately overwrites the link
with END), the invariant holds for the one-element chain `[H]`. -/
lemma alloc_first_step (s : Fs) (H : Nat) (hH : find_block s = some H) :
    AllocInv s (write_block (write_block s H H) H END_SENTINEL) [H] ∧
      freeCount (write_block (write_block s H H) H END_SENTINEL) + 1 = freeCount s := by
  obtain ⟨hH_lt, hH_free, hH_min⟩ := find_block_some s H hH
  have ht2map : ∀ a, (write_block (write_block s H H) H END_SENTINEL).map a
      = if a = H then END_SENTINEL else s.map a := by
    intro a
    rw [write_block_map _ H _ (by simpa using hH_lt)]
    by_cases h : a = H
    · rw [if_pos h, if_pos h]
    · rw [if_neg h, if_neg h, write_block_map s H H hH_lt, if_neg h]
  have hchar2 : ∀ a, (write_block (write_block s H H) H END_SENTINEL).map a = 0
      ↔ (s.map a = 0 ∧ a ≠ H) := by
    intro a
    rw [ht2map a]
    by_cases h : a = H
    · simp [h, END_SENTINEL_ne_zero]
    · simp [h]
  constructor
  · refine ⟨by simp, by simp, by simp, by simp, by simp, List.nodup_singleton H,
      ?_, ?_, ?_, ?_, ?_⟩
    · intro a ha
      have hab : a = H := by simpa using ha
      subst hab
      exact ⟨hH_lt, hH_free⟩
    · intro a
      rw [hchar2 a]
      simp
    · intro a ha
      have hab : ¬ a = H := by simpa using ha
      rw [ht2map a, if_neg hab]
    · rw [List.singleton_append, List.chain'_cons]
      exact ⟨by rw [ht2map H, if_pos rfl], List.chain'_singleton _⟩
    · intro h0
      have hc : 0 < s.count := by omega
      have := find_block_zero s h0 hc
      rw [hH] at this
      have hH0 : H = 0 := by simpa using this
      simp [hH0]
  · exact freeCount_pred s _ H (by simp) hH_lt hH_free hchar2

/-- `Chain'` of a chain ending in a sentinel: the entry of the last
element is the sentinel. -/
lemma chain_last_end {m : Nat → Nat} {l : List Nat} {p e : Nat}
    (hchain : List.Chain' (fun a b => m a = b) (l ++ [e]))
    (hlast : l.getLast? = some p) : m p = e := by
  have h3 := (List.chain'_append.1 hchain).2.2
  apply h3 p _ e (by simp)
  rw [hlast]
  rfl

/-- Master specification of `allocate_blocks` for `n ≥ 1` with at least
`n` free chainmap entries: no panic, the returned head is the first-fit
free block, and the claimed blocks form a fresh END-terminated chain of
length exactly `n` inside the final state. -/
theorem allocate_blocks_ok (s : Fs) (n : Nat) (h1 : 1 ≤ n) (h2 : n ≤ freeCount s) :
    ∃ H r s', allocate_blocks s n = some (some H, s') ∧
      find_block s = some H ∧ r.head? = some H ∧ r.length = n ∧ AllocInv s s' r := by
  obtain ⟨m, rfl⟩ : ∃ m, n = m + 1 := ⟨n - 1, by omega⟩
  have hpos : 0 < freeCount s := by omega
  obtain ⟨H, hH⟩ := Option.isSome_iff_exists.1 (find_block_isSome_of_freeCount s hpos)
  obtain ⟨hinv, hfc2⟩ := alloc_first_step s H hH
  obtain ⟨r, t', p', hloop, hinv', hlast', hlen⟩ :=
    allocLoop_ok s m _ [H] H hinv (by simp) (by omega)
  have hrun : allocLoop s (some H) (m + 1) = some (some p', t') := by
    simp only [allocLoop, hH]
    exact hloop
  have hp'_mem : p' ∈ [H] ++ r := by
    rw [← List.dropLast_append_getLast? p' hlast']
    simp
  have hp'_lt : p' < t'.count := by
    rw [hinv'.1]
    exact (hinv'.2.2.2.2.2.2.1 p' hp'_mem).1
  have hp'_end : t'.map p' = END_SENTINEL :=
    chain_last_end hinv'.2.2.2.2.2.2.2.2.2.1 hlast'
  have hsmap : ∀ a, (write_block t' p' END_SENTINEL).map a = t'.map a := by
    intro a
    rw [write_block_map t' p' _ hp'_lt]
    by_cases h : a = p'
    · rw [if_pos h, h, hp'_end]
    · rw [if_neg h]
  refine ⟨H, [H] ++ r, write_block t' p' END_SENTINEL, ?_, hH, by simp, by simp [hlen], ?_⟩
  · rw [allocate_blocks, if_neg (by omega), hH, hrun]
  · exact AllocInv_congr s t' _ ([H] ++ r) hinv' hsmap (by simp) (by simp) (by simp) (by simp)

/-- `allocate_blocks` with `n ≥ 1` and fewer than `n` free entries
panics (an `unwrap` of `None` from the scan). -/
theorem allocate_blocks_panic (s : Fs) (n : Nat) (h1 : 1 ≤ n) (h2 : freeCount s < n) :
    allocate_blocks s n = none := by
  obtain ⟨m, rfl⟩ : ∃ m, n = m + 1 := ⟨n - 1, by omega⟩
  by_cases hfc : freeCount s = 0
  · have hnone := find_block_none_of_freeCount s hfc
    rw [allocate_blocks, if_neg (by omega)]
    simp [allocLoop, hnone]
  · have hpos : 0 < freeCount s := by omega
    obtain ⟨H, hH⟩ := Option.isSome_iff_exists.1 (find_block_isSome_of_freeCount s hpos)
    obtain ⟨hinv, hfc2⟩ := alloc_first_step s H hH
    have hloop := allocLoop_panic s m _ [H] H hinv (by simp) (by omega)
    rw [allocate_blocks, if_neg (by omega)]
    simp only [allocLoop, hH]
    rw [hloop]

end NoctFS

namespace NoctFS

/-! ## `shrink_chain_by` -/

lemma writeZeros_count : ∀ (ws : List Nat) (fs : Fs), (writeZeros fs ws).count = fs.count := by
  intro ws
  induction ws with
  | nil => intro fs; rfl
  | cons w rest ih => intro fs; rw [writeZeros, ih]; simp

lemma writeZeros_dev : ∀ (ws : List Nat) (fs : Fs), (writeZeros fs ws).dev = fs.dev := by
  intro ws
  induction ws with
  | nil => intro fs; rfl
  | cons w rest ih => intro fs; rw [writeZeros, ih]; simp

lemma writeZeros_sector_size : ∀ (ws : List Nat) (fs : Fs),
    (writeZeros fs ws).sector_size = fs.sector_size := by
  intro ws
  induction ws with
  | nil => intro fs; rfl
  | cons w rest ih => intro fs; rw [writeZeros, ih]; simp

lemma writeZeros_block_size : ∀ (ws : List Nat) (fs : Fs),
    (writeZeros fs ws).block_size = fs.block_size := by
  intro ws
  induction ws with
  | nil => intro fs; rfl
  | cons w rest ih => intro fs; rw [writeZeros, ih]; simp

lemma writeZeros_map : ∀ (ws : List Nat) (fs : Fs), (∀ x ∈ ws, x < fs.count) →
    ∀ a, (writeZeros fs ws).map a = if a ∈ ws then 0 else fs.map a := by
  intro ws
  induction ws with
  | nil => intro fs _ a; simp [writeZeros]
  | cons w rest ih =>
    intro fs hlt a
    rw [writeZeros]
    have hw : w < fs.count := hlt w (by simp)
    rw [ih (write_block fs w 0) (fun x hx => by simpa using hlt x (by simp [hx])) a]
    by_cases h1 : a ∈ rest
    · rw [if_pos h1, if_pos (by simp [h1])]
    · rw [if_neg h1, write_block_map fs w 0 hw]
      by_cases h2 : a = w
      · rw [if_pos h2, if_pos (by simp [h2])]
      · rw [if_neg h2, if_neg (by simp [h1, h2])]

/-- Specification of `shrink_chain_by` for `1 ≤ k < L` on a valid chain
of length `L`: the entry at position `L-k-1` (the new last block)
becomes END, the last `k` blocks are zeroed, and nothing else changes. -/
theorem shrink_chain_by_ok (fs : Fs) (start : Nat) (l : List Nat) (k : Nat)
    (h : ChainShape fs start l) (hEnd : fs.count ≤ END_SENTINEL)
    (hk1 : 1 ≤ k) (hk2 : k < l.length) :
    ∃ fs' w, shrink_chain_by fs start k = some fs' ∧
      (l.take (l.length - k)).getLast? = some w ∧
      fs'.map w = END_SENTINEL ∧
      (∀ a ∈ l.drop (l.length - k), fs'.map a = 0) ∧
      (∀ a, a ∉ l.drop (l.length - k - 1) → fs'.map a = fs.map a) ∧
      fs'.count = fs.count ∧ fs'.dev = fs.dev ∧
      fs'.sector_size = fs.sector_size ∧ fs'.block_size = fs.block_size := by
  obtain ⟨hhead, hlt, hnd, hchain⟩ := h
  have hgc : get_chain fs start = l :=
    ChainShape.get_chain_eq ⟨hhead, hlt, hnd, hchain⟩ hEnd
  have hlen_drop : (l.drop (l.length - k - 1)).length = k + 1 := by
    rw [List.length_drop]; omega
  obtain ⟨w0, ws, hwa⟩ : ∃ w0 ws, l.drop (l.length - k - 1) = w0 :: ws := by
    cases hd : l.drop (l.length - k - 1) with
    | nil => rw [hd] at hlen_drop; simp at hlen_drop
    | cons a b => exact ⟨a, b, rfl⟩
  have hws : l.drop (l.length - k) = ws := by
    have h1 : l.drop (l.length - k) = (l.drop (l.length - k - 1)).drop 1 := by
      rw [List.drop_drop]
      congr 1
      omega
    rw [h1, hwa, List.drop_one, List.tail_cons]
  have htake : l.take (l.length - k) = l.take (l.length - k - 1) ++ [w0] := by
    have hlenA : (l.take (l.length - k - 1)).length = l.length - k - 1 := by
      rw [List.length_take]; omega
    have hsplit : l.take (l.length - k)
        = (l.take (l.length - k - 1) ++ (w0 :: ws)).take (l.length - k) := by
      rw [← hwa, List.take_append_drop]
    rw [hsplit, List.take_append_eq_append_take, hlenA,
      List.take_of_length_le (by rw [hlenA]; omega)]
    congr 1
    rw [show l.length - k - (l.length - k - 1) = 1 by omega]
    rfl
  have hw0_last : (l.take (l.length - k)).getLast? = some w0 := by
    rw [htake, List.getLast?_concat]
  have hwa_sub : ∀ x, x ∈ w0 :: ws → x ∈ l := by
    intro x hx
    rw [← hwa] at hx
    exact List.drop_subset _ _ hx
  have hw0_lt : w0 < fs.count := hlt w0 (hwa_sub w0 (by simp))
  have hnd_wa : (w0 :: ws).Nodup := by
    rw [← hwa]
    exact hnd.sublist (List.drop_sublist _ _)
  have hw0_notin_ws : w0 ∉ ws := (List.nodup_cons.1 hnd_wa).1
  have hmap' : ∀ a, (writeZeros (write_block fs w0 END_SENTINEL) ws).map a
      = if a ∈ ws then 0 else if a = w0 then END_SENTINEL else fs.map a := by
    intro a
    rw [writeZeros_map ws _ (fun x hx => by
      simpa using hlt x (hwa_sub x (by simp [hx]))) a]
    by_cases h1 : a ∈ ws
    · rw [if_pos h1, if_pos h1]
    · rw [if_neg h1, if_neg h1, write_block_map fs w0 _ hw0_lt]
  refine ⟨writeZeros (write_block fs w0 END_SENTINEL) ws, w0, ?_, hw0_last, ?_, ?_, ?_,
    by rw [writeZeros_count]; simp, by rw [writeZeros_dev]; simp,
    by rw [writeZeros_sector_size]; simp, by rw [writeZeros_block_size]; simp⟩
  · rw [shrink_chain_by]
    simp only [hgc]
    rw [if_neg (by omega), if_neg (by omega), if_neg (by omega), hwa]
  · rw [hmap' w0, if_neg hw0_notin_ws, if_pos rfl]
  · intro a ha
    rw [hws] at ha
    rw [hmap' a, if_pos ha]
  · intro a ha
    rw [hwa] at ha
    rw [hmap' a, if_neg (fun h => ha (by simp [h])), if_neg (fun h => ha (by simp [h]))]

end NoctFS

namespace NoctFS

/-! ## `free_blocks` -/

lemma free_loop_ok :
    ∀ (l : List Nat) (fs : Fs) (current fuel : Nat),
      fs.count ≤ END_SENTINEL →
      l.head? = some current → (∀ a ∈ l, a < fs.count) → l.Nodup →
      List.Chain' (fun a b => fs.map a = b) (l ++ [END_SENTINEL]) →
      l.length ≤ fuel →
      (∀ a ∈ l, (free_loop fs current fuel).map a = 0) ∧
      (∀ a, a ∉ l → (free_loop fs current fuel).map a = fs.map a) ∧
      (free_loop fs current fuel).count = fs.count ∧
      (free_loop fs current fuel).dev = fs.dev ∧
      (free_loop fs current fuel).sector_size = fs.sector_size ∧
      (free_loop fs current fuel).block_size = fs.block_size := by
  intro l
  induction l with
  | nil => intro fs current fuel _ hhead; simp at hhead
  | cons a tl ih =>
    intro fs current fuel hEnd hhead hlt hnd hchain hfuel
    have hca : current = a := by simpa using hhead.symm
    subst hca
    obtain ⟨f, rfl⟩ : ∃ f, fuel = f + 1 := ⟨fuel - 1, by simp at hfuel; omega⟩
    have hac : current < fs.count := hlt current (by simp)
    have hgb : get_block fs current = some (fs.map current) := if_pos hac
    rw [List.cons_append, List.chain'_cons'] at hchain
    obtain ⟨hrel, htail⟩ := hchain
    have ha_notin : current ∉ tl := (List.nodup_cons.1 hnd).1
    cases tl with
    | nil =>
      have hmap : fs.map current = END_SENTINEL := hrel _ (by simp)
      have heq : free_loop fs current (f + 1) = write_block fs current 0 := by
        rw [free_loop, hgb]
        show (if fs.map current = END_SENTINEL then _ else _) = _
        rw [if_pos hmap]
      rw [heq]
      refine ⟨?_, ?_, by simp, by simp, by simp, by simp⟩
      · intro x hx
        have hxa : x = current := by simpa using hx
        subst hxa
        exact write_block_map_self fs x 0 hac
      · intro x hx
        have hxa : ¬ x = current := by simpa using hx
        exact write_block_map_other fs current 0 hac x hxa
    | cons b tl' =>
      have hmap : fs.map current = b := hrel b (by simp)
      have hb_lt : b < fs.count := hlt b (by simp)
      have hbne : b ≠ END_SENTINEL := by omega
      have heq : free_loop fs current (f + 1)
          = free_loop (write_block fs current 0) b f := by
        rw [free_loop, hgb]
        show (if fs.map current = END_SENTINEL then _ else _) = _
        rw [if_neg (hmap ▸ hbne), hmap]
      rw [heq]
      have hfs1map : ∀ x, x ≠ current → (write_block fs current 0).map x = fs.map x :=
        fun x hx => write_block_map_other fs current 0 hac x hx
      have ihres := ih (write_block fs current 0) b f (by simpa using hEnd) (by simp)
        (fun x hx => by simpa using hlt x (by simp [hx]))
        ((List.nodup_cons.1 hnd).2)
        (chain'_ext fs.map _ _ (fun x hx => by
          have hxl : x ∈ b :: tl' := by
            rw [List.dropLast_concat] at hx
            exact hx
          refine (hfs1map x (fun hxc => ha_notin ?_)).symm
          rw [← hxc]
          exact hxl) htail)
        (by simp at hfuel ⊢; omega)
      obtain ⟨ih1, ih2, ih3, ih4, ih5, ih6⟩ := ihres
      refine ⟨?_, ?_, by rw [ih3]; simp, by rw [ih4]; simp, by rw [ih5]; simp, by rw [ih6]; simp⟩
      · intro x hx
        rcases List.mem_cons.1 hx with rfl | hxtl
        · rw [ih2 x ha_notin, write_block_map_self fs x 0 hac]
        · exact ih1 x hxtl
      · intro x hx
        rw [List.mem_cons] at hx
        push_neg at hx
        rw [ih2 x hx.2, hfs1map x hx.1]

/-- Specification of `free_blocks` on a valid chain not containing
block 0: every chain entry becomes 0, nothing else changes. -/
theorem free_blocks_ok (fs : Fs) (start : Nat) (l : List Nat)
    (h : ChainShape fs start l) (h0 : start ≠ 0) (hEnd : fs.count ≤ END_SENTINEL) :
    (∀ a ∈ l, (free_blocks fs start).map a = 0) ∧
    (∀ a, a ∉ l → (free_blocks fs start).map a = fs.map a) ∧
    (free_blocks fs start).count = fs.count := by
  obtain ⟨hhead, hlt, hnd, hchain⟩ := h
  have hlen : l.length ≤ fs.count := nodup_length_le l fs.count hnd hlt
  have hfree : free_blocks fs start = free_loop fs start (fs.count + 1) := by
    rw [free_blocks, if_neg h0]
  obtain ⟨h1, h2, h3, _, _, _⟩ :=
    free_loop_ok l fs start (fs.count + 1) hEnd hhead hlt hnd hchain (by omega)
  rw [hfree]
  exact ⟨h1, h2, h3⟩

end NoctFS

namespace NoctFS

/-! ## `extend_chain_by` -/

/-- Specification of `extend_chain_by` on a valid chain avoiding block 0
with `c ≥ 1` and at least `c` free entries: the chain is prolonged by a
fresh chain of exactly `c` previously-free blocks. -/
theorem extend_chain_by_ok (fs : Fs) (start : Nat) (l : List Nat) (c : Nat)
    (h : ChainShape fs start l) (h0 : ∀ a ∈ l, a ≠ 0) (hEnd : fs.count ≤ END_SENTINEL)
    (hc : 1 ≤ c) (hfree : c ≤ freeCount fs) :
    ∃ fs' r, extend_chain_by fs start c = some fs' ∧ ChainShape fs' start (l ++ r) ∧
      r.length = c ∧ fs'.count = fs.count ∧ fs'.dev = fs.dev ∧
      fs'.sector_size = fs.sector_size ∧ fs'.block_size = fs.block_size ∧
      (∀ a ∈ r, fs.map a = 0) := by
  obtain ⟨hhead, hlt, hnd, hchain⟩ := h
  have hgc : get_chain fs start = l :=
    ChainShape.get_chain_eq ⟨hhead, hlt, hnd, hchain⟩ hEnd
  have hne : l ≠ [] := by intro hl; rw [hl] at hhead; simp at hhead
  have hlast : l.getLast? = some (l.getLast hne) := List.getLast?_eq_getLast l hne
  set p := l.getLast hne with hp
  obtain ⟨H, r, s1, halloc, hfind, hheadr, hlenr, hinv⟩ := allocate_blocks_ok fs c hc hfree
  obtain ⟨hicnt, hiss, hibs, hidev, hrne, hrnd, hrmem, hichar, hiframe, hichain, hizero⟩ := hinv
  have hdisj : ∀ a ∈ l, a ∉ r := by
    intro a ha har
    exact ChainShape.map_ne_zero ⟨hhead, hlt, hnd, hchain⟩ h0 a ha (hrmem a har).2
  have hp_mem : p ∈ l := by
    rw [← List.dropLast_append_getLast? p hlast]
    simp
  have hp_lt1 : p < s1.count := by
    rw [hicnt]
    exact hlt p hp_mem
  have hp_notin_r : p ∉ r := hdisj p hp_mem
  have hfsmap : ∀ a, (write_block s1 p H).map a = if a = p then H else s1.map a :=
    fun a => write_block_map s1 p H hp_lt1 a
  have hrun : extend_chain_by fs start c = some (write_block s1 p H) := by
    rw [extend_chain_by]
    simp only [hgc, hlast, halloc]
  have hrheadH : r.head? = some H := hheadr
  refine ⟨write_block s1 p H, r, hrun, ?_, hlenr, by simp [hicnt],
    by simp [hidev], by simp [hiss], by simp [hibs], fun a ha => (hrmem a ha).2⟩
  refine ⟨?_, ?_, ?_, ?_⟩
  · rw [List.head?_append_of_ne_nil _ hne]
    exact hhead
  · intro a ha
    rw [write_block_count, hicnt]
    rcases List.mem_append.1 ha with hmem | hmem
    · exact hlt a hmem
    · exact (hrmem a hmem).1
  · rw [List.nodup_append]
    exact ⟨hnd, hrnd, fun a ha har => (hdisj a ha) har⟩
  · -- links
    rw [List.append_assoc]
    refine List.Chain'.append ?_ ?_ ?_
    · refine chain'_ext fs.map _ l ?_ (List.Chain'.left_of_append hchain)
      intro a ha
      have hal : a ∈ l := List.dropLast_subset l ha
      have hap : ¬ a = p := by
        intro hcc
        have hnd' : (l.dropLast ++ [p]).Nodup := by
          rw [List.dropLast_append_getLast? p hlast]
          exact hnd
        have hpd : p ∈ l.dropLast := by rw [← hcc]; exact ha
        exact (List.nodup_append.1 hnd').2.2 hpd (by simp)
      rw [hfsmap a, if_neg hap, hiframe a (hdisj a hal)]
    · refine chain'_ext s1.map _ (r ++ [END_SENTINEL]) ?_ hichain
      intro a ha
      rw [List.dropLast_concat] at ha
      have hap : ¬ a = p := by
        intro hcc
        subst hcc
        exact hp_notin_r ha
      rw [hfsmap a, if_neg hap]
    · intro x hx y hy
      rw [hlast] at hx
      have hx' : p = x := by simpa using hx
      rw [List.head?_append_of_ne_nil _ hrne, hrheadH] at hy
      have hy' : H = y := by simpa using hy
      rw [← hx', ← hy', hfsmap p, if_pos rfl]

end NoctFS

namespace NoctFS

/-! ## `set_chain_size` -/

/-- Specification of `set_chain_size` for target `k ≥ 1` on a valid
chain avoiding block 0 (with enough free blocks when growing): the walk
from `start` afterwards has length exactly `k`. -/
theorem set_chain_size_ok (fs : Fs) (start : Nat) (l : List Nat) (k : Nat)
    (h : ChainShape fs start l) (h0 : ∀ a ∈ l, a ≠ 0) (hEnd : fs.count ≤ END_SENTINEL)
    (hk : 1 ≤ k) (hfree : l.length < k → k - l.length ≤ freeCount fs) :
    ∃ fs', set_chain_size fs start k = some fs' ∧ (get_chain fs' start).length = k := by
  obtain ⟨hhead, hlt, hnd, hchain⟩ := h
  have hgc : get_chain fs start = l :=
    ChainShape.get_chain_eq ⟨hhead, hlt, hnd, hchain⟩ hEnd
  have hne : l ≠ [] := by intro hl; rw [hl] at hhead; simp at hhead
  have hL1 : 1 ≤ l.length := List.length_pos.2 hne
  rcases Nat.lt_trichotomy l.length k with hlt_k | heq_k | hgt_k
  · -- grow
    obtain ⟨fs', r, hrun, hshape', hlenr, hcnt', _, _, _, _⟩ :=
      extend_chain_by_ok fs start l (k - l.length) ⟨hhead, hlt, hnd, hchain⟩ h0 hEnd
        (by omega) (hfree hlt_k)
    refine ⟨fs', ?_, ?_⟩
    · rw [set_chain_size]
      simp only [hgc]
      rw [if_neg (by omega), if_neg (by omega)]
      exact hrun
    · rw [hshape'.get_chain_eq (by rw [hcnt']; exact hEnd)]
      rw [List.length_append, hlenr]
      omega
  · -- already the right length
    refine ⟨fs, ?_, ?_⟩
    · rw [set_chain_size]
      simp only [hgc]
      rw [if_pos heq_k]
    · rw [hgc, heq_k]
  · -- shrink
    obtain ⟨fs', w, hrun, hw_last, hw_end, hzeros, hframe, hcnt', hdev', hss', hbs'⟩ :=
      shrink_chain_by_ok fs start l (l.length - k) ⟨hhead, hlt, hnd, hchain⟩ hEnd
        (by omega) (by omega)
    have hkk : l.length - (l.length - k) = k := by omega
    rw [hkk] at hw_last
    have hkm1 : l.length - (l.length - k) - 1 = k - 1 := by omega
    have htdl : (l.take k).dropLast = l.take (k - 1) := by
      rw [List.dropLast_eq_take, List.length_take, List.take_take]
      congr 1
      omega
    have hndtd : (l.take (k - 1) ++ l.drop (k - 1)).Nodup := by
      rw [List.take_append_drop]
      exact hnd
    have hshape' : ChainShape fs' start (l.take k) := by
      refine ⟨?_, ?_, hnd.sublist (List.take_sublist k l), ?_⟩
      · cases l with
        | nil => exact absurd rfl hne
        | cons a tl =>
          obtain ⟨k', rfl⟩ : ∃ k', k = k' + 1 := ⟨k - 1, by omega⟩
          simpa using hhead
      · intro a ha
        rw [hcnt']
        exact hlt a (List.take_subset k l ha)
      · refine List.Chain'.append ?_ (List.chain'_singleton _) ?_
        · have hpre := List.take_prefix k l
          have hinf := List.IsPrefix.isInfix hpre
          have hcinf := List.Chain'.infix (List.Chain'.left_of_append hchain) hinf
          refine chain'_ext fs.map _ _ ?_ hcinf
          intro a ha
          rw [htdl] at ha
          refine (hframe a ?_).symm
          rw [hkm1]
          intro hdrop
          exact (List.nodup_append.1 hndtd).2.2 ha hdrop
        · intro x hx y hy
          rw [hw_last] at hx
          have hx' : w = x := by simpa using hx
          have hy' : END_SENTINEL = y := by simpa using hy
          rw [← hx', ← hy']
          exact hw_end
    refine ⟨fs', ?_, ?_⟩
    · rw [set_chain_size]
      simp only [hgc]
      rw [if_neg (by omega), if_pos (by omega)]
      exact hrun
    · rw [hshape'.get_chain_eq (by rw [hcnt']; exact hEnd), List.length_take]
      omega

end NoctFS

namespace NoctFS

/-! ## Claim theorems: chainmap allocator -/

/-- C2 (amended): for `n ≥ 1` with at least `n` free chainmap entries,
`allocate_blocks(n)` returns a head `H` that is the lowest-indexed free
entry at the time of the call, and the chain from `H` afterwards has
length exactly `n`; for `n = 0` it returns `None`; for `n ≥ 1` with
fewer than `n` free entries the call panics (`find_block().unwrap()` on
`None`) instead of returning `None` — modelled as the `none` result. -/
theorem C2_allocate_blocks_spec (fs : Fs) (n : Nat) (hEnd : fs.count ≤ END_SENTINEL) :
    (n = 0 → allocate_blocks fs n = some (none, fs)) ∧
    (1 ≤ n → n ≤ freeCount fs →
      ∃ H fs', allocate_blocks fs n = some (some H, fs') ∧
        H < fs.count ∧ fs.map H = 0 ∧ (∀ j, j < H → fs.map j ≠ 0) ∧
        (get_chain fs' H).length = n) ∧
    (1 ≤ n → freeCount fs < n → allocate_blocks fs n = none) := by
  refine ⟨?_, ?_, ?_⟩
  · intro h
    rw [h, allocate_blocks, if_pos rfl]
  · intro h1 h2
    obtain ⟨H, r, fs', halloc, hfind, hheadr, hlenr, hinv⟩ := allocate_blocks_ok fs n h1 h2
    obtain ⟨hH_lt, hH_free, hH_min⟩ := find_block_some fs H hfind
    obtain ⟨hicnt, _, _, _, _, hrnd, hrmem, _, _, hichain, _⟩ := hinv
    refine ⟨H, fs', halloc, hH_lt, hH_free, hH_min, ?_⟩
    have hshape : ChainShape fs' H r :=
      ⟨hheadr, fun a ha => by rw [hicnt]; exact (hrmem a ha).1, hrnd, hichain⟩
    rw [hshape.get_chain_eq (by rw [hicnt]; exact hEnd), hlenr]
  · intro h1 h2
    exact allocate_blocks_panic fs n h1 h2

/-- Chainmap with entries `[END, 0]`: exactly one free block. -/
def fsC2x : Fs := ⟨512, 512, 2, fun i => if i = 0 then END_SENTINEL else 0, fun _ => 0⟩

/-- C2 counterexample: with 1 free block, `allocate_blocks(2)` does not
return `None` (which would be `some (none, _)` here) — it panics on the
`unwrap` of the failing scan, modelled as the `none` result. -/
theorem C2_allocate_insufficient_panics :
    freeCount fsC2x = 1 ∧ allocate_blocks fsC2x 2 = none := by
  constructor
  · decide
  · rfl

/-- Chainmap with entries `[END, 0, 0]`. -/
def fsC2w : Fs := ⟨512, 512, 3, fun i => if i = 0 then END_SENTINEL else 0, fun _ => 0⟩

theorem C2_allocate_blocks_spec_witness :
    ((2 : Nat) = 0 → allocate_blocks fsC2w 2 = some (none, fsC2w)) ∧
    (1 ≤ 2 → 2 ≤ freeCount fsC2w →
      ∃ H fs', allocate_blocks fsC2w 2 = some (some H, fs') ∧
        H < fsC2w.count ∧ fsC2w.map H = 0 ∧ (∀ j, j < H → fsC2w.map j ≠ 0) ∧
        (get_chain fs' H).length = 2) ∧
    (1 ≤ 2 → freeCount fsC2w < 2 → allocate_blocks fsC2w 2 = none) :=
  C2_allocate_blocks_spec fsC2w 2 (by decide)

/-- C3 (amended): on a valid chain of length `L`, `shrink_chain_by(k)`
with `1 ≤ k ≤ L-1` sets the entry of the new last block (position
`L-k-1`) to END, zeroes exactly the last `k` blocks and leaves every
other entry unchanged; with `k = 0` or `k > L` it is a no-op; with
`k = L` the slice index `chain.len() - count - 1` underflows and the
call panics instead of performing the removal. -/
theorem C3_shrink_chain_spec (fs : Fs) (start : Nat) (l : List Nat) (k : Nat)
    (h : ChainShape fs start l) (hEnd : fs.count ≤ END_SENTINEL) :
    (k = 0 → shrink_chain_by fs start k = some fs) ∧
    (l.length < k → shrink_chain_by fs start k = some fs) ∧
    (k = l.length → shrink_chain_by fs start k = none) ∧
    (1 ≤ k → k < l.length →
      ∃ fs' w, shrink_chain_by fs start k = some fs' ∧
        (l.take (l.length - k)).getLast? = some w ∧
        fs'.map w = END_SENTINEL ∧
        (∀ a ∈ l.drop (l.length - k), fs'.map a = 0) ∧
        (∀ a, a ∉ l.drop (l.length - k - 1) → fs'.map a = fs.map a)) := by
  have hgc : get_chain fs start = l := h.get_chain_eq hEnd
  have hne : l ≠ [] := by
    intro hl
    rw [hl] at h
    simp [ChainShape] at h
  have hL1 : 1 ≤ l.length := List.length_pos.2 hne
  refine ⟨?_, ?_, ?_, ?_⟩
  · intro hk
    rw [hk, shrink_chain_by]
    simp only [hgc]
    simp
  · intro hk
    rw [shrink_chain_by]
    simp only [hgc]
    rw [if_neg (by omega), if_pos hk]
  · intro hk
    rw [shrink_chain_by]
    simp only [hgc]
    rw [if_neg (by omega), if_neg (by omega), if_pos (by omega)]
  · intro hk1 hk2
    obtain ⟨fs', w, hrun, hlast, hend, hzero, hframe, _, _, _, _⟩ :=
      shrink_chain_by_ok fs start l k h hEnd hk1 hk2
    exact ⟨fs', w, hrun, hlast, hend, hzero, hframe⟩

/-- Chainmap with entries `[END, END]`: block 1 is a one-block chain. -/
def fsC3x : Fs := ⟨512, 512, 2, fun i => if i ≤ 1 then END_SENTINEL else 0, fun _ => 0⟩

/-- C3 counterexample: shrinking a length-1 chain by `k = 1` (i.e.
`k = L`, allowed by the claim's `1 ≤ k ≤ L`) panics on the underflowing
slice index instead of truncating the chain. -/
theorem C3_shrink_full_length_panics : shrink_chain_by fsC3x 1 1 = none := by
  rfl

/-- Chainmap with the chain `1 → 2 → 3 → END`. -/
def fsC3w : Fs :=
  ⟨512, 512, 4,
    fun i => if i = 0 then END_SENTINEL else if i = 1 then 2 else if i = 2 then 3
      else if i = 3 then END_SENTINEL else 0,
    fun _ => 0⟩

theorem C3_shrink_chain_spec_witness :
    ((1 : Nat) = 0 → shrink_chain_by fsC3w 1 1 = some fsC3w) ∧
    (([1, 2, 3] : List Nat).length < 1 → shrink_chain_by fsC3w 1 1 = some fsC3w) ∧
    ((1 : Nat) = ([1, 2, 3] : List Nat).length → shrink_chain_by fsC3w 1 1 = none) ∧
    (1 ≤ 1 → 1 < ([1, 2, 3] : List Nat).length →
      ∃ fs' w, shrink_chain_by fsC3w 1 1 = some fs' ∧
        (([1, 2, 3] : List Nat).take (([1, 2, 3] : List Nat).length - 1)).getLast? = some w ∧
        fs'.map w = END_SENTINEL ∧
        (∀ a ∈ ([1, 2, 3] : List Nat).drop (([1, 2, 3] : List Nat).length - 1), fs'.map a = 0) ∧
        (∀ a, a ∉ ([1, 2, 3] : List Nat).drop (([1, 2, 3] : List Nat).length - 1 - 1) →
          fs'.map a = fsC3w.map a)) :=
  C3_shrink_chain_spec fsC3w 1 [1, 2, 3] 1 (by decide) (by decide)

/-- C4 (amended): on a valid chain avoiding block 0, for every target
length `k ≥ 1` (with enough free blocks when `k` exceeds the current
length), `set_chain_size(start, k)` succeeds and `get_chain(start)`
afterwards has length exactly `k`; for `k = 0` the call shrinks by the
full current length and panics (the `k = L` underflow of
`shrink_chain_by`) instead of emptying the chain. -/
theorem C4_set_chain_size_spec (fs : Fs) (start : Nat) (l : List Nat) (k : Nat)
    (h : ChainShape fs start l) (h0 : ∀ a ∈ l, a ≠ 0) (hEnd : fs.count ≤ END_SENTINEL)
    (hk : 1 ≤ k) (hfree : l.length < k → k - l.length ≤ freeCount fs) :
    ∃ fs', set_chain_size fs start k = some fs' ∧ (get_chain fs' start).length = k :=
  set_chain_size_ok fs start l k h h0 hEnd hk hfree

/-- C4 counterexample: resizing a one-block chain to length 0 panics
(`shrink_chain_by` is called with `k = L` and underflows) — the claim
asserts the chain walk would have length 0 afterwards. -/
theorem C4_resize_to_zero_panics : set_chain_size fsC3x 1 0 = none := by
  rfl

/-- Chainmap with entries `[END, END, 0]`: chain `[1]`, one free block. -/
def fsC4w : Fs :=
  ⟨512, 512, 3,
    fun i => if i = 0 then END_SENTINEL else if i = 1 then END_SENTINEL else 0,
    fun _ => 0⟩

theorem C4_set_chain_size_spec_witness :
    ∃ fs', set_chain_size fsC4w 1 2 = some fs' ∧ (get_chain fs' 1).length = 2 :=
  C4_set_chain_size_spec fsC4w 1 [1] 2 (by decide) (by decide) (by decide) (by decide)
    (fun _ => by decide)

/-- C7 (amended): freeing a valid chain (`start ≠ 0`) zeroes the
chainmap entry of every block of the chain and changes nothing else;
however the subsequent `get_chain(start)` is NOT the empty walk — the
walk re-enters at `start` (whose entry is now 0) and continues through
block 0, so it is nonempty. -/
theorem C7_free_blocks_spec (fs : Fs) (start : Nat) (l : List Nat)
    (h : ChainShape fs start l) (h0 : start ≠ 0) (hEnd : fs.count ≤ END_SENTINEL) :
    (∀ a ∈ l, (free_blocks fs start).map a = 0) ∧
    (∀ a, a ∉ l → (free_blocks fs start).map a = fs.map a) ∧
    get_chain (free_blocks fs start) start ≠ [] := by
  obtain ⟨h1, h2, h3⟩ := free_blocks_ok fs start l h h0 hEnd
  refine ⟨h1, h2, ?_⟩
  have hstart_mem : start ∈ l := by
    have hhead := h.1
    cases l with
    | nil => simp at hhead
    | cons a tl =>
      have ha : a = start := by simpa using hhead
      rw [← ha]
      simp
  have hstart_lt : start < (free_blocks fs start).count := by
    rw [h3]
    exact h.2.1 start hstart_mem
  exact get_chain_ne_nil _ start hstart_lt

/-- Chainmap with the chain `1 → 2 → END`. -/
def fsC7w : Fs :=
  ⟨512, 512, 3,
    fun i => if i = 0 then END_SENTINEL else if i = 1 then 2 else END_SENTINEL,
    fun _ => 0⟩

theorem C7_free_blocks_spec_witness :
    (∀ a ∈ ([1, 2] : List Nat), (free_blocks fsC7w 1).map a = 0) ∧
    (∀ a, a ∉ ([1, 2] : List Nat) → (free_blocks fsC7w 1).map a = fsC7w.map a) ∧
    get_chain (free_blocks fsC7w 1) 1 ≠ [] :=
  C7_free_blocks_spec fsC7w 1 [1, 2] (by decide) (by decide) (by decide)

/-- C7 counterexample: after freeing the one-block chain `[1]`,
`get_chain(1)` is `[1, 0]` — block 1's entry is now 0, so the walk
visits 1, then the reserved block 0 — not the empty walk the claim
asserts. -/
theorem C7_chain_after_free_not_empty :
    get_chain (free_blocks fsC3x 1) 1 = [1, 0] ∧
      get_chain (free_blocks fsC3x 1) 1 ≠ [] := by
  constructor
  · rfl
  · decide

end NoctFS

namespace NoctFS

/-! ## Device byte I/O and the data zone

The device is a byte map; `devRead`/`devWrite` model `seek(Start pos)`
followed by a full `read`/`write` of `len` bytes (the device port
performs full transfers, spec §4.1). -/

def devRead (dev : Nat → Nat) : Nat → Nat → List Nat
  | _, 0 => []
  | pos, len + 1 => dev pos :: devRead dev (pos + 1) len

def devWrite : (Nat → Nat) → Nat → List Nat → (Nat → Nat)
  | dev, _, [] => dev
  | dev, pos, b :: rest => devWrite (fun a => if a = pos then b else dev a) (pos + 1) rest

/-- `NoctFS::datazone_offset`: `sector_size + BLOCK_ADDRESS_SIZE * block_map_count`. -/
def datazone_offset (fs : Fs) : Nat := fs.sector_size + 8 * fs.count

/-- `NoctFS::datazone_offset_with_block`. -/
def datazone_offset_with_block (fs : Fs) (block : Nat) : Nat :=
  datazone_offset fs + block * fs.block_size

/-- The `for (nr, &i) in chain.iter().enumerate()` loop of
`read_blocks_data`. `data` is the caller's buffer; a read replaces the
slice `data[data_offset..end_offset]` with device bytes. For `nr == 0`
the seek position gains `intra` and the read length loses `intra`
(`read_size -= first_occurency_offset`; `none` models the `usize`
underflow when `intra` exceeds the remaining length, and the slice
panic when `end_offset` exceeds the buffer). -/
def read_loop (fs : Fs) (intra : Nat) : List Nat → Nat → Nat → List Nat → Option (List Nat)
  | [], _, _, data => some data
  | i :: rest, nr, data_length, data =>
    let read_size := if data_length < fs.block_size then data_length else fs.block_size
    if read_size = 0 then some data
    else
      let pos := datazone_offset_with_block fs i + (if nr = 0 then intra else 0)
      if nr = 0 ∧ read_size < intra then none
      else
        let rs := if nr = 0 then read_size - intra else read_size
        let data_offset := nr * fs.block_size
        let end_offset := data_offset + rs
        if data.length < end_offset then none
        else
          read_loop fs intra rest (nr + 1) (data_length - rs)
            (data.take data_offset ++ devRead fs.dev pos rs ++ data.drop end_offset)

/-- `NoctFS::read_blocks_data`: truncate the chain by
`offset / block_size`, then run the read loop with the intra-block
offset `offset % block_size`. `chain_off > chain.len()` is a no-op. -/
def read_blocks_data (fs : Fs) (start_block : Nat) (data : List Nat) (offset : Nat) :
    Option (List Nat) :=
  let chain := get_chain fs start_block
  let chain_off := offset / fs.block_size
  let first_occurency_offset := offset % fs.block_size
  if chain.length < chain_off then some data
  else read_loop fs first_occurency_offset (chain.drop chain_off) 0 data.length data

/-- The write loop of `write_blocks_data`. Unlike the read loop, the
source does NOT deduct `intra` from the first write length (that line
is commented out, lib.rs:346) and does not break on a zero-sized write;
the first write is `min(len, block_size)` bytes starting at position
`block_start + intra`. -/
def write_loop (fs : Fs) (intra : Nat) :
    List Nat → Nat → Nat → List Nat → (Nat → Nat) → Option (Nat → Nat)
  | [], _, _, _, dev => some dev
  | i :: rest, nr, data_length, data, dev =>
    let pos := datazone_offset_with_block fs i + (if nr = 0 then intra else 0)
    let data_offset := nr * fs.block_size
    let write_size := if data_length < fs.block_size then data_length else fs.block_size
    let end_offset := data_offset + write_size
    if data.length < end_offset then none
    else
      write_loop fs intra rest (nr + 1) (data_length - write_size) data
        (devWrite dev pos ((data.drop data_offset).take write_size))

/-- `NoctFS::write_blocks_data`. -/
def write_blocks_data (fs : Fs) (start_block : Nat) (data : List Nat) (offset : Nat) :
    Option Fs :=
  let chain := get_chain fs start_block
  let chain_off := offset / fs.block_size
  let first_occurency_offset := offset % fs.block_size
  if chain.length < chain_off then some fs
  else
    match write_loop fs first_occurency_offset (chain.drop chain_off) 0 data.length
        data fs.dev with
    | none => none
    | some dev' => some { fs with dev := dev' }

/-- `NoctFS::read_chain_data_vec`: read the whole chain into a zeroed
buffer of `chain_size * block_size` bytes. -/
def read_chain_data_vec (fs : Fs) (start_block : Nat) : Option (List Nat) :=
  read_blocks_data fs start_block
    (List.replicate ((get_chain fs start_block).length * fs.block_size) 0) 0

/-! ## Entity codec (`src/entity.rs`)

Rust `String` names are modelled as lists of Unicode scalar values;
`as_raw` emits their UTF-8 encoding, `from_raw` decodes the name bytes
with `String::from_utf8_lossy` (standard library, modelled by
`utf8DecodeLossy`: well-formed sequences decode to their scalar,
ill-formed sequences produce U+FFFD). -/

def leBytes : Nat → Nat → List Nat
  | 0, _ => []
  | k + 1, n => n % 256 :: leBytes k (n / 256)

def leVal : List Nat → Nat
  | [] => 0
  | b :: rest => b + 256 * leVal rest

def utf8EncodeChar (c : Nat) : List Nat :=
  if c < 0x80 then [c]
  else if c < 0x800 then [0xC0 + c / 64, 0x80 + c % 64]
  else if c < 0x10000 then [0xE0 + c / 4096, 0x80 + c / 64 % 64, 0x80 + c % 64]
  else [0xF0 + c / 0x40000, 0x80 + c / 4096 % 64, 0x80 + c / 64 % 64, 0x80 + c % 64]

def utf8Encode (s : List Nat) : List Nat := (s.map utf8EncodeChar).flatten

/-- One step of the lossy UTF-8 decoder: the scalar decoded at the head
byte `b` (or U+FFFD) and how many bytes of `rest` it consumed. -/
def utf8Step (b : Nat) (rest : List Nat) : Nat × Nat :=
  if b < 0x80 then (b, 0)
  else if 0xC2 ≤ b ∧ b < 0xE0 then
    match rest with
    | b1 :: _ =>
      if 0x80 ≤ b1 ∧ b1 < 0xC0 then ((b - 0xC0) * 64 + (b1 - 0x80), 1) else (0xFFFD, 0)
    | [] => (0xFFFD, 0)
  else if 0xE0 ≤ b ∧ b < 0xF0 then
    match rest with
    | b1 :: b2 :: _ =>
      if (0x80 ≤ b1 ∧ b1 < 0xC0) ∧ (0x80 ≤ b2 ∧ b2 < 0xC0) ∧
          (b = 0xE0 → 0xA0 ≤ b1) ∧ (b = 0xED → b1 < 0xA0) then
        ((b - 0xE0) * 4096 + (b1 - 0x80) * 64 + (b2 - 0x80), 2)
      else (0xFFFD, 0)
    | _ => (0xFFFD, 0)
  else if 0xF0 ≤ b ∧ b < 0xF5 then
    match rest with
    | b1 :: b2 :: b3 :: _ =>
      if (0x80 ≤ b1 ∧ b1 < 0xC0) ∧ (0x80 ≤ b2 ∧ b2 < 0xC0) ∧ (0x80 ≤ b3 ∧ b3 < 0xC0) ∧
          (b = 0xF0 → 0x90 ≤ b1) ∧ (b = 0xF4 → b1 < 0x90) then
        ((b - 0xF0) * 0x40000 + (b1 - 0x80) * 4096 + (b2 - 0x80) * 64 + (b3 - 0x80), 3)
      else (0xFFFD, 0)
    | _ => (0xFFFD, 0)
  else (0xFFFD, 0)

def utf8DecodeLossyF : Nat → List Nat → List Nat
  | 0, _ => []
  | _ + 1, [] => []
  | fuel + 1, b :: rest =>
    match utf8Step b rest with
    | (c, k) => c :: utf8DecodeLossyF fuel (rest.drop k)

def utf8DecodeLossy (l : List Nat) : List Nat := utf8DecodeLossyF l.length l

/-- `Entity` (src/entity.rs). `flags` is the raw u32 bit set; bit 0 is
`EntityFlags::DIRECTORY`. -/
structure Entity where
  name : List Nat
  size : Nat
  start_block : Nat
  flags : Nat
  vendor_data_size : Nat
  deriving DecidableEq

/-- `Entity::file`: empty flags. -/
def Entity.file (name : List Nat) (size : Nat) (start_block : Nat) : Entity :=
  ⟨name, size, start_block, 0, 0⟩

/-- `Entity::directory`: the DIRECTORY bit. -/
def Entity.directory (name : List Nat) (size : Nat) (start_block : Nat) : Entity :=
  ⟨name, size, start_block, 1, 0⟩

/-- `Entity::header_size`: everything after the header-size field, as a
u32 (`as u32` truncates, hence the `% 2^32`). -/
def Entity.header_size (e : Entity) : Nat :=
  (4 + (utf8Encode e.name).length + 8 + 8 + 4 + 4 + e.vendor_data_size) % 2 ^ 32

/-- `Entity::fact_size`: `header_size() + 4`. -/
def Entity.fact_size (e : Entity) : Nat := e.header_size + 4

/-- `Entity::as_raw`. `leBytes 4`/`leBytes 8` emit the low 4/8 bytes,
which is exactly the `as u32`/`to_le_bytes` behaviour of the source.
Note the source never emits `vendor_data` itself. -/
def Entity.as_raw (e : Entity) : List Nat :=
  leBytes 4 e.header_size ++ leBytes 4 (utf8Encode e.name).length ++ utf8Encode e.name ++
    leBytes 8 e.size ++ leBytes 8 e.start_block ++ leBytes 4 e.flags ++
    leBytes 4 e.vendor_data_size

/-- `Entity::from_raw`. Each `split_at` panics (`none`) when the data
is too short; `EntityFlags::from_bits(..).unwrap()` panics (`none`)
when any bit other than DIRECTORY (bit 0) is set; the name is decoded
lossily and never fails. -/
def Entity.from_raw (data : List Nat) : Option Entity :=
  if data.length < 4 then none else
  let rest0 := data.drop 4
  if rest0.length < 4 then none else
  let namesize := leVal (rest0.take 4)
  let rest1 := rest0.drop 4
  if rest1.length < namesize then none else
  let nameB := rest1.take namesize
  let rest2 := rest1.drop namesize
  if rest2.length < 8 then none else
  let size := leVal (rest2.take 8)
  let rest3 := rest2.drop 8
  if rest3.length < 8 then none else
  let offset := leVal (rest3.take 8)
  let rest4 := rest3.drop 8
  if rest4.length < 4 then none else
  let flags := leVal (rest4.take 4)
  let rest5 := rest4.drop 4
  if rest5.length < 4 then none else
  let vendor_data_size := leVal (rest5.take 4)
  if 2 ≤ flags then none
  else some ⟨utf8DecodeLossy nameB, size, offset, flags, vendor_data_size⟩

/-! ## Directory engine pieces used by the claims -/

/-- The record walk of `get_entity_offset`: advance by
`header_size + 4`; stop with the offset whose serialized bytes equal
the queried entity's, `None` on a zero header, panic (`none`) when a
4-byte header read or the byte comparison would run past the buffer.
Fueled: the caller passes more fuel than any terminating walk uses
(each iteration advances `index` by at least 5). -/
def get_entity_offset_loop (data raw : List Nat) : Nat → Nat → Option (Option Nat)
  | _, 0 => none
  | index, fuel + 1 =>
    if index < data.length then
      if data.length < index + 4 then none
      else
        let header_size := leVal ((data.drop index).take 4)
        if header_size = 0 then some none
        else if data.length < index + raw.length then none
        else if (data.drop index).take raw.length = raw then some (some index)
        else get_entity_offset_loop data raw (index + header_size + 4) fuel
    else some none

/-- `NoctFS::get_entity_offset`. Outer `none` is a panic; `some none`
is the function's own `None` result. -/
def get_entity_offset (fs : Fs) (directory_block : Nat) (entity : Entity) :
    Option (Option Nat) :=
  match read_chain_data_vec fs directory_block with
  | none => none
  | some data => get_entity_offset_loop data entity.as_raw 0 (data.length + 1)

/-- `NoctFS::write_contents_by_entity`: resize the file's chain to
`ceil((offset + len) / block_size)`, write the data, then rewrite the
directory record with `size = offset + len`. Panics (`none`) propagate
from `set_chain_size`/`write_blocks_data`/`get_entity_offset().unwrap()`. -/
def write_contents_by_entity (fs : Fs) (directory_block : Nat) (entity : Entity)
    (data : List Nat) (offset : Nat) : Option Fs :=
  let block := entity.start_block
  let offset_end := data.length + offset
  let target_chain_len := (offset_end + fs.block_size - 1) / fs.block_size
  match set_chain_size fs block target_chain_len with
  | none => none
  | some fs1 =>
    match write_blocks_data fs1 block data offset with
    | none => none
    | some fs2 =>
      match get_entity_offset fs2 directory_block entity with
      | none => none
      | some none => none
      | some (some ent_offset) =>
        write_blocks_data fs2 directory_block
          ({ entity with size := offset_end }).as_raw ent_offset

/-- `NoctFS::read_contents_by_entity`: delegates to `read_blocks_data`
over the entity's start block. -/
def read_contents_by_entity (fs : Fs) (entity : Entity) (data : List Nat) (offset : Nat) :
    Option (List Nat) :=
  read_blocks_data fs entity.start_block data offset

end NoctFS

namespace NoctFS

/-! ## Claim C1: write/read round trip (code bug)

Concrete instance: block size 512, root directory chain `[1]` holding
the record of file `f` (start block 2, one-block chain `[2]`). Data
zone base: `512 + 8*4 = 544`; block 1 bytes start at 1056, block 2
bytes at 1568. -/

def eC1 : Entity := Entity.file [102] 0 2

def fsC1 : Fs :=
  ⟨512, 512, 4,
    fun i => if i = 0 then END_SENTINEL else if i = 1 then END_SENTINEL
      else if i = 2 then END_SENTINEL else 0,
    fun a => if 1056 ≤ a ∧ a < 1056 + 33 then (Entity.as_raw eC1).getD (a - 1056) 0 else 0⟩

set_option maxRecDepth 100000

/-- The round trip of claim C1 at offset 1 (intra-block offset 1):
write one byte `[7]` at offset 1 through `write_contents_by_entity`,
read the same range back through `read_contents_by_entity`. -/
def C1run : Option (List Nat) :=
  match write_contents_by_entity fsC1 1 eC1 [7] 1 with
  | none => none
  | some fs' => read_contents_by_entity fs' eC1 [0] 1

/-- C1: the round trip FAILS for a non-block-aligned offset. The write
places the byte at `block_start + 1`, but the read deducts the
intra-block offset from the first read length (lib.rs:297), reads 0
bytes and returns the caller's buffer unchanged: `[0]`, not the written
`[7]`. The write path lost the matching deduction (commented out at
lib.rs:346), so write and read disagree on unaligned ranges. -/
theorem C1_unaligned_round_trip_fails : C1run = some [0] ∧ some [0] ≠ some [7] := by
  constructor
  · rfl
  · decide

/-! ## Claim C5: unaligned writes cross the first block's boundary -/

/-- Chainmap `1 → 3 → END`, with block 2 a separate one-block chain;
all device bytes 0. -/
def fsC5 : Fs :=
  ⟨512, 512, 4,
    fun i => if i = 0 then END_SENTINEL else if i = 1 then 3
      else if i = 2 then END_SENTINEL else if i = 3 then END_SENTINEL else 0,
    fun _ => 0⟩

/-- Write 512 bytes of value 42 at offset 1 into the chain `[1, 3]`,
then observe the first byte of block 2's data region (offset
`544 + 2*512 = 1568`), which belongs to a different chain. -/
def C5run : Option Nat :=
  match write_blocks_data fsC5 1 (List.replicate 512 42) 1 with
  | none => none
  | some fs' => some (fs'.dev 1568)

/-- C5: with `intra = 1` the first write emits a full
`min(len, block_size) = 512` bytes starting at `block_start + 1`
(the `write_size -= intra` deduction is commented out, lib.rs:346), so
the write crosses the first block's physical boundary and clobbers the
first byte of the adjacent block 2 — a block of a different chain.
The claim says the first block receives exactly `block_size - intra`
bytes and no write crosses the boundary, which would leave that byte 0. -/
theorem C5_first_write_crosses_block_boundary : C5run = some 42 ∧ some 42 ≠ some 0 := by
  constructor
  · rfl
  · decide

end NoctFS

namespace NoctFS

/-! ## Helper lemmas for device reads and little-endian values -/

@[simp] lemma devRead_length (dev : Nat → Nat) : ∀ pos len, (devRead dev pos len).length = len := by
  intro pos len
  induction len generalizing pos with
  | zero => rfl
  | succ n ih => rw [devRead]; simp [ih]

lemma devRead_take (dev : Nat → Nat) : ∀ len pos k,
    (devRead dev pos len).take k = devRead dev pos (min k len) := by
  intro len
  induction len with
  | zero => intro pos k; simp [devRead]
  | succ n ih =>
    intro pos k
    cases k with
    | zero => simp [devRead]
    | succ m =>
      rw [devRead, List.take_succ_cons, ih (pos + 1) m, Nat.succ_min_succ, devRead]

lemma devRead_drop (dev : Nat → Nat) : ∀ len pos k, k ≤ len →
    (devRead dev pos len).drop k = devRead dev (pos + k) (len - k) := by
  intro len
  induction len with
  | zero => intro pos k hk; interval_cases k; simp [devRead]
  | succ n ih =>
    intro pos k hk
    cases k with
    | zero => simp
    | succ m =>
      rw [devRead, List.drop_succ_cons, ih (pos + 1) m (by omega)]
      have e1 : pos + 1 + m = pos + (m + 1) := by omega
      have e2 : n - m = n + 1 - (m + 1) := by omega
      rw [e1, e2]

lemma leVal_leBytes : ∀ (k n : Nat), leVal (leBytes k n) = n % 256 ^ k := by
  intro k
  induction k with
  | zero => intro n; simp [leBytes, leVal, Nat.mod_one]
  | succ m ih =>
    intro n
    rw [leBytes, leVal, ih (n / 256), Nat.pow_succ, Nat.mul_comm (256 ^ m) 256,
      Nat.mod_mul]

end NoctFS

namespace NoctFS

/-! ## `allocate_for_entity` (the directory free-slot scan) -/

/-- The `while index < data.len()` loop of `allocate_for_entity`.
After skipping a record the scan extends the directory's chain by one
block and re-reads the bytes whenever
`entity.fact_size() >= data.len() - index` (note `>=`: also on an exact
fit). `none` models the panics (4-byte header read past the end, the
`usize` underflow of `data.len() - index`, and panics inside
`extend_chain_by`) as well as fuel exhaustion; theorems use enough fuel
for the executions they describe. -/
def alloc_scan (directory_block : Nat) (entity : Entity) :
    Nat → Fs → List Nat → Nat → Option (Option Nat × Fs)
  | 0, _, _, _ => none
  | fuel + 1, fs, data, index =>
    if index < data.length then
      if data.length < index + 4 then none
      else
        let header_size := leVal ((data.drop index).take 4)
        if header_size = 0 then some (some index, fs)
        else
          let index2 := index + header_size + 4
          if data.length < index2 then none
          else if data.length - index2 ≤ entity.fact_size then
            match extend_chain_by fs directory_block 1 with
            | none => none
            | some fs1 =>
              match read_chain_data_vec fs1 directory_block with
              | none => none
              | some data1 => alloc_scan directory_block entity fuel fs1 data1 index2
          else alloc_scan directory_block entity fuel fs data index2
    else some (none, fs)

/-- `NoctFS::allocate_for_entity`. Outer `none` is a panic (or fuel
exhaustion); `some none` models the function's own `None` return. -/
def allocate_for_entity (fuel : Nat) (fs : Fs) (directory_block : Nat) (entity : Entity) :
    Option (Option Nat × Fs) :=
  match read_chain_data_vec fs directory_block with
  | none => none
  | some data => alloc_scan directory_block entity fuel fs data 0

/-! ## Whole-chain reads -/

/-- The read loop at intra-offset 0 with a buffer covering the whole
remaining chain reads each block's full `block_size` bytes in turn. -/
lemma read_loop_full (fs : Fs) (hbs : 0 < fs.block_size) :
    ∀ (chain : List Nat) (nr : Nat) (data : List Nat),
      data.length = (nr + chain.length) * fs.block_size →
      read_loop fs 0 chain nr (chain.length * fs.block_size) data
        = some (data.take (nr * fs.block_size)
            ++ (chain.map (fun b => devRead fs.dev (datazone_offset_with_block fs b)
                  fs.block_size)).flatten) := by
  intro chain
  induction chain with
  | nil =>
    intro nr data hlen
    rw [read_loop]
    rw [List.take_of_length_le (by simp at hlen ⊢; omega)]
    simp
  | cons i rest ih =>
    intro nr data hlen
    have hmul : (nr + (rest.length + 1)) * fs.block_size
        = nr * fs.block_size + fs.block_size + rest.length * fs.block_size := by ring
    have hlen' : data.length = nr * fs.block_size + fs.block_size
        + rest.length * fs.block_size := by rw [hlen, List.length_cons, hmul]
    have hBle : fs.block_size ≤ (rest.length + 1) * fs.block_size :=
      Nat.le_mul_of_pos_left fs.block_size (by omega)
    simp only [read_loop, List.length_cons]
    have hrs : (if (rest.length + 1) * fs.block_size < fs.block_size
        then (rest.length + 1) * fs.block_size else fs.block_size) = fs.block_size :=
      if_neg (by omega)
    rw [hrs]
    rw [if_neg (by omega : ¬ fs.block_size = 0)]
    rw [if_neg (by simp : ¬ (nr = 0 ∧ fs.block_size < 0))]
    simp only [Nat.sub_zero, ite_self, Nat.add_zero]
    rw [if_neg (by omega : ¬ data.length < nr * fs.block_size + fs.block_size)]
    have hsub : (rest.length + 1) * fs.block_size - fs.block_size
        = rest.length * fs.block_size := by
      rw [Nat.succ_mul]
      omega
    rw [hsub]
    have hAlen : (data.take (nr * fs.block_size)).length = nr * fs.block_size := by
      rw [List.length_take]
      omega
    have hdlen : (data.take (nr * fs.block_size)
        ++ devRead fs.dev (datazone_offset_with_block fs i) fs.block_size
        ++ data.drop (nr * fs.block_size + fs.block_size)).length
        = (nr + 1 + rest.length) * fs.block_size := by
      simp only [List.length_append, devRead_length, List.length_drop, hAlen]
      rw [show (nr + 1 + rest.length) * fs.block_size
        = nr * fs.block_size + fs.block_size + rest.length * fs.block_size by ring]
      omega
    rw [ih (nr + 1) _ hdlen]
    have htk : (data.take (nr * fs.block_size)
        ++ devRead fs.dev (datazone_offset_with_block fs i) fs.block_size
        ++ data.drop (nr * fs.block_size + fs.block_size)).take
          ((nr + 1) * fs.block_size)
        = data.take (nr * fs.block_size)
          ++ devRead fs.dev (datazone_offset_with_block fs i) fs.block_size := by
      rw [List.append_assoc]
      rw [show (nr + 1) * fs.block_size
        = (data.take (nr * fs.block_size)).length + fs.block_size by
          rw [hAlen, Nat.succ_mul]]
      rw [List.take_append]
      rw [List.take_append_of_le_length (by simp)]
      rw [devRead_take]
      simp
    rw [htk]
    simp [List.append_assoc]

/-- `read_chain_data_vec` returns the concatenation of the chain's
blocks' data-zone bytes. -/
lemma read_chain_data_vec_eq (fs : Fs) (start : Nat) (hbs : 0 < fs.block_size) :
    read_chain_data_vec fs start
      = some (((get_chain fs start).map
          (fun b => devRead fs.dev (datazone_offset_with_block fs b)
            fs.block_size)).flatten) := by
  unfold read_chain_data_vec read_blocks_data
  simp only [Nat.zero_div, Nat.zero_mod, List.drop_zero, List.length_replicate]
  rw [if_neg (by omega)]
  rw [read_loop_full fs hbs _ 0 _ (by simp)]
  simp

end NoctFS

namespace NoctFS

/-! ## Step equations for the `allocate_for_entity` scan -/

lemma alloc_scan_found (dirblock : Nat) (e : Entity) (fuel : Nat) (fs : Fs) (data : List Nat)
    (index : Nat) (h1 : index < data.length) (h2 : ¬ data.length < index + 4)
    (h3 : leVal ((data.drop index).take 4) = 0) :
    alloc_scan dirblock e (fuel + 1) fs data index = some (some index, fs) := by
  rw [alloc_scan, if_pos h1, if_neg h2]
  simp [h3]

lemma alloc_scan_skip_extend (dirblock : Nat) (e : Entity) (fuel : Nat) (fs fs1 : Fs)
    (data data1 : List Nat) (index hsval : Nat)
    (h1 : index < data.length) (h2 : ¬ data.length < index + 4)
    (hsz : leVal ((data.drop index).take 4) = hsval) (hnz : ¬ hsval = 0)
    (h4 : ¬ data.length < index + hsval + 4)
    (h5 : data.length - (index + hsval + 4) ≤ e.fact_size)
    (hext : extend_chain_by fs dirblock 1 = some fs1)
    (hrd : read_chain_data_vec fs1 dirblock = some data1) :
    alloc_scan dirblock e (fuel + 1) fs data index
      = alloc_scan dirblock e fuel fs1 data1 (index + hsval + 4) := by
  rw [alloc_scan, if_pos h1, if_neg h2]
  simp only [hsz]
  rw [if_neg hnz, if_neg h4, if_pos h5]
  simp only [hext, hrd]

lemma alloc_scan_skip (dirblock : Nat) (e : Entity) (fuel : Nat) (fs : Fs)
    (data : List Nat) (index hsval : Nat)
    (h1 : index < data.length) (h2 : ¬ data.length < index + 4)
    (hsz : leVal ((data.drop index).take 4) = hsval) (hnz : ¬ hsval = 0)
    (h4 : ¬ data.length < index + hsval + 4)
    (h5 : ¬ data.length - (index + hsval + 4) ≤ e.fact_size) :
    alloc_scan dirblock e (fuel + 1) fs data index
      = alloc_scan dirblock e fuel fs data (index + hsval + 4) := by
  rw [alloc_scan, if_pos h1, if_neg h2]
  simp only [hsz]
  rw [if_neg hnz, if_neg h4, if_neg h5]

/-! ## Claim C8: the directory free-slot scan's extension condition

Family of concrete directories: block size 512, chainmap
`[END, END, 0]` (directory chain `[1]`, block 2 free), data zone base
`512 + 8*3 = 536`, block 1 bytes at `[1048, 1560)`, block 2 bytes at
`[1560, 2072)`. Block 1 holds a single record whose header-size field
is `h0` (bytes `[1048, 1052)`), everything else is zero, so the walk
skips that record to `index = h0 + 4` and finds the zero header there.
The queried entity has an `n`-byte ASCII name, total size `32 + n`. -/

def C8map : Nat → Nat :=
  fun i => if i = 0 then END_SENTINEL else if i = 1 then END_SENTINEL else 0

def C8dev (h0 : Nat) : Nat → Nat :=
  fun a => if 1048 ≤ a ∧ a < 1052 then (leBytes 4 h0).getD (a - 1048) 0 else 0

def C8state (h0 : Nat) : Fs := ⟨512, 512, 3, C8map, C8dev h0⟩

/-- The same chainmap/geometry with a fixed all-zero device: the
chainmap facts of `C8state h0` are independent of `h0`, so they are
decided on this closed state and transported by definitional equality. -/
def C8fixed : Fs := ⟨512, 512, 3, C8map, fun _ => 0⟩

def C8entity (n : Nat) : Entity := Entity.file (List.replicate n 97) 0 2

lemma utf8Encode_replicate_a : ∀ n, utf8Encode (List.replicate n 97) = List.replicate n 97 := by
  intro n
  induction n with
  | zero => rfl
  | succ m ih =>
    rw [List.replicate_succ, utf8Encode, List.map_cons, List.flatten_cons]
    rw [utf8Encode] at ih
    rw [ih]
    rfl

lemma C8fact (n : Nat) (hn : n ≤ 480) : (C8entity n).fact_size = 32 + n := by
  have hname : (utf8Encode (C8entity n).name).length = n := by
    show (utf8Encode (List.replicate n 97)).length = n
    rw [utf8Encode_replicate_a, List.length_replicate]
  unfold Entity.fact_size Entity.header_size
  rw [hname]
  show (4 + n + 8 + 8 + 4 + 4 + 0) % 2 ^ 32 + 4 = 32 + n
  rw [Nat.mod_eq_of_lt (by omega)]
  omega

lemma C8dev_zero (h0 a : Nat) (ha : 1052 ≤ a) : C8dev h0 a = 0 := by
  unfold C8dev
  rw [if_neg (by omega)]

lemma C8header_head (h0 : Nat) (hlt : h0 < 2 ^ 32) :
    leVal (((devRead (C8dev h0) 1048 512).drop 0).take 4) = h0 := by
  rw [List.drop_zero, devRead_take]
  have hmin : min 4 512 = 4 := by omega
  rw [hmin]
  show leVal (leBytes 4 h0) = h0
  rw [leVal_leBytes, Nat.mod_eq_of_lt (by omega)]

lemma C8header_tail (h0 idx : Nat) (h4 : 4 ≤ idx) (hle : idx + 4 ≤ 512) :
    leVal (((devRead (C8dev h0) 1048 512).drop idx).take 4) = 0 := by
  rw [devRead_drop _ _ _ _ (by omega), devRead_take]
  rw [show min 4 (512 - idx) = 4 by omega]
  show leVal (C8dev h0 (1048 + idx) :: C8dev h0 (1048 + idx + 1)
    :: C8dev h0 (1048 + idx + 1 + 1) :: C8dev h0 (1048 + idx + 1 + 1 + 1) :: []) = 0
  rw [C8dev_zero h0 _ (by omega), C8dev_zero h0 _ (by omega), C8dev_zero h0 _ (by omega),
    C8dev_zero h0 _ (by omega)]
  rfl

end NoctFS

namespace NoctFS

/-- C8 (amended): during the free-slot walk the chain is extended by
one block if and only if the residual space `data.len() - index` is
smaller than OR EQUAL TO the entity's total size `fact_size()` — the
source tests `fact_size() >= data.len() - index` — so on an exact fit
an extension DOES happen (contrary to the claim). Stated over a family
of single-record directories with record header size `h0` and an
entity with an `n`-byte name: the scan always returns the slot at
`h0 + 4`; the directory chain ends with 2 blocks exactly when
`512 - (h0+4) ≤ fact_size`, and stays at 1 block otherwise. -/
theorem C8_alloc_for_entity_extension_iff (h0 n : Nat)
    (h1 : 0 < h0) (h2 : h0 + 8 ≤ 512) (hn : n ≤ 480) :
    ∃ fs', allocate_for_entity 4 (C8state h0) 1 (C8entity n) = some (some (h0 + 4), fs') ∧
      ((get_chain fs' 1).length = 2 ↔ 512 - (h0 + 4) ≤ (C8entity n).fact_size) ∧
      (¬ 512 - (h0 + 4) ≤ (C8entity n).fact_size → (get_chain fs' 1).length = 1) := by
  have hchain0 : get_chain (C8state h0) 1 = [1] := rfl
  have hbs0 : 0 < (C8state h0).block_size := by
    show (0 : Nat) < 512
    omega
  have hA : read_chain_data_vec (C8state h0) 1 = some (devRead (C8dev h0) 1048 512) := by
    rw [read_chain_data_vec_eq _ _ hbs0, hchain0]
    show some (devRead (C8dev h0) 1048 512 ++ []) = _
    rw [List.append_nil]
  have hAlen : (devRead (C8dev h0) 1048 512).length = 512 := devRead_length _ _ _
  have hheadA : leVal (((devRead (C8dev h0) 1048 512).drop 0).take 4) = h0 :=
    C8header_head h0 (by omega)
  rw [C8fact n hn]
  by_cases hc : 512 - (h0 + 4) ≤ 32 + n
  · -- extension happens
    have hshape : ChainShape (C8state h0) 1 [1] := by
      show ChainShape C8fixed 1 [1]
      decide
    obtain ⟨fs1, r, hext, hshape1, hlenr, hcnt1, hdev1, hss1, hbs1, hfree_r⟩ :=
      extend_chain_by_ok (C8state h0) 1 [1] 1 hshape (by decide)
        (by show (3 : Nat) ≤ END_SENTINEL; decide)
        (le_refl 1) (by show 1 ≤ freeCount C8fixed; decide)
    obtain ⟨a, rfl⟩ : ∃ a, r = [a] := by
      cases r with
      | nil => simp at hlenr
      | cons x xs =>
        cases xs with
        | nil => exact ⟨x, rfl⟩
        | cons y ys => simp at hlenr
    have hmem_a := hfree_r a (by simp)
    have ha_lt : a < 3 := by
      have ha := hshape1.2.1 a (by simp)
      rw [hcnt1] at ha
      exact ha
    have ha2 : a = 2 := by
      interval_cases a
      · exact absurd hmem_a (by show ¬ C8map 0 = 0; decide)
      · exact absurd hmem_a (by show ¬ C8map 1 = 0; decide)
      · rfl
    subst ha2
    have hchain1 : get_chain fs1 1 = [1, 2] := hshape1.get_chain_eq (by
      rw [hcnt1]
      show (3 : Nat) ≤ END_SENTINEL
      decide)
    have hbs1' : 0 < fs1.block_size := by
      rw [hbs1]
      exact hbs0
    have hB : read_chain_data_vec fs1 1
        = some (devRead (C8dev h0) 1048 512 ++ devRead (C8dev h0) 1560 512) := by
      rw [read_chain_data_vec_eq _ _ hbs1', hchain1]
      simp only [List.map_cons, List.map_nil, List.flatten_cons, List.flatten_nil,
        List.append_nil]
      unfold datazone_offset_with_block datazone_offset
      rw [hdev1, hbs1, hss1, hcnt1]
      rfl
    have hdata1len : (devRead (C8dev h0) 1048 512
        ++ devRead (C8dev h0) 1560 512).length = 1024 := by
      simp
    have hstep1 := alloc_scan_skip_extend 1 (C8entity n) 3 (C8state h0) fs1
      (devRead (C8dev h0) 1048 512)
      (devRead (C8dev h0) 1048 512 ++ devRead (C8dev h0) 1560 512) 0 h0
      (by rw [hAlen]; omega) (by rw [hAlen]; omega) hheadA (by omega)
      (by rw [hAlen]; omega) (by rw [hAlen, C8fact n hn]; omega) hext hB
    have hhead2 : leVal (((devRead (C8dev h0) 1048 512
        ++ devRead (C8dev h0) 1560 512).drop (0 + h0 + 4)).take 4) = 0 := by
      rw [List.drop_append_of_le_length (by rw [hAlen]; omega)]
      rw [List.take_append_of_le_length (by
        rw [List.length_drop, hAlen]
        omega)]
      exact C8header_tail h0 (0 + h0 + 4) (by omega) (by omega)
    have hstep2 := alloc_scan_found 1 (C8entity n) 2 fs1
      (devRead (C8dev h0) 1048 512 ++ devRead (C8dev h0) 1560 512) (0 + h0 + 4)
      (by rw [hdata1len]; omega) (by rw [hdata1len]; omega) hhead2
    have hfinal : alloc_scan 1 (C8entity n) (3 + 1) (C8state h0)
        (devRead (C8dev h0) 1048 512) 0 = some (some (0 + h0 + 4), fs1) := by
      rw [hstep1]
      exact hstep2
    rw [show (0 : Nat) + h0 + 4 = h0 + 4 by omega] at hfinal
    refine ⟨fs1, ?_, ?_, ?_⟩
    · rw [allocate_for_entity]
      simp only [hA]
      exact hfinal
    · rw [hchain1]
      exact iff_of_true rfl hc
    · intro hnc
      exact absurd hc hnc
  · -- no extension: the record fits in the residual space
    have hstep1 := alloc_scan_skip 1 (C8entity n) 3 (C8state h0)
      (devRead (C8dev h0) 1048 512) 0 h0
      (by rw [hAlen]; omega) (by rw [hAlen]; omega) hheadA (by omega)
      (by rw [hAlen]; omega) (by rw [hAlen, C8fact n hn]; omega)
    have hhead2 : leVal (((devRead (C8dev h0) 1048 512).drop (0 + h0 + 4)).take 4) = 0 :=
      C8header_tail h0 (0 + h0 + 4) (by omega) (by omega)
    have hstep2 := alloc_scan_found 1 (C8entity n) 2 (C8state h0)
      (devRead (C8dev h0) 1048 512) (0 + h0 + 4)
      (by rw [hAlen]; omega) (by rw [hAlen]; omega) hhead2
    have hfinal : alloc_scan 1 (C8entity n) (3 + 1) (C8state h0)
        (devRead (C8dev h0) 1048 512) 0 = some (some (0 + h0 + 4), C8state h0) := by
      rw [hstep1]
      exact hstep2
    rw [show (0 : Nat) + h0 + 4 = h0 + 4 by omega] at hfinal
    refine ⟨C8state h0, ?_, ?_, ?_⟩
    · rw [allocate_for_entity]
      simp only [hA]
      exact hfinal
    · rw [hchain0]
      exact iff_of_false (by decide) hc
    · intro _
      rw [hchain0]
      rfl

/-- The scan of C8's family at the exact-fit point `h0 = 476`,
`n = 0` (record total size 32, residual space exactly 32), observed as
the returned offset and the directory chain length afterwards. -/
def C8run : Option (Option Nat × Nat) :=
  match allocate_for_entity 4 (C8state 476) 1 (C8entity 0) with
  | none => none
  | some (r, fs') => some (r, (get_chain fs' 1).length)

set_option maxRecDepth 2000000 in
/-- C8 counterexample: when the residual space exactly equals the
entity's total size (`512 - 480 = 32 = fact_size`), the claim says no
extension happens; the code extends the chain (length 2 afterwards)
because its test is `fact_size >= residual`, not `>`. -/
theorem C8_exact_fit_extends :
    C8run = some (some 480, 2) ∧ (C8entity 0).fact_size = 512 - 480 := by
  constructor
  · decide
  · rfl

theorem C8_alloc_for_entity_extension_iff_witness :
    ∃ fs', allocate_for_entity 4 (C8state 440) 1 (C8entity 0)
        = some (some (440 + 4), fs') ∧
      ((get_chain fs' 1).length = 2 ↔ 512 - (440 + 4) ≤ (C8entity 0).fact_size) ∧
      (¬ 512 - (440 + 4) ≤ (C8entity 0).fact_size → (get_chain fs' 1).length = 1) :=
  C8_alloc_for_entity_extension_iff 440 0 (by decide) (by decide) (by decide)

end NoctFS

namespace NoctFS

/-! ## Entity codec round-trip (claims C9, C10) -/

lemma leBytes_length : ∀ (k n : Nat), (leBytes k n).length = k := by
  intro k
  induction k with
  | zero => intro n; rfl
  | succ m ih => intro n; rw [leBytes]; simp [ih]

lemma utf8DecodeLossyF_fuel : ∀ (n m : Nat) (l : List Nat), l.length ≤ n → l.length ≤ m →
    utf8DecodeLossyF n l = utf8DecodeLossyF m l := by
  intro n
  induction n with
  | zero =>
    intro m l hn hm
    have hl : l = [] := List.eq_nil_of_length_eq_zero (by omega)
    subst hl
    cases m <;> rfl
  | succ n ih =>
    intro m l hn hm
    cases l with
    | nil => cases m <;> rfl
    | cons b rest =>
      cases m with
      | zero => simp at hm
      | succ m' =>
        simp only [List.length_cons] at hn hm
        rw [utf8DecodeLossyF, utf8DecodeLossyF]
        cases hstep : utf8Step b rest with
        | mk c k =>
          simp only [hstep]
          congr 1
          exact ih m' (rest.drop k) (by simp [List.length_drop]; omega)
            (by simp [List.length_drop]; omega)

lemma utf8DecodeLossy_cons (b : Nat) (rest : List Nat) :
    utf8DecodeLossy (b :: rest) =
      (utf8Step b rest).1 :: utf8DecodeLossy (rest.drop (utf8Step b rest).2) := by
  show utf8DecodeLossyF (b :: rest).length (b :: rest) = _
  rw [List.length_cons, utf8DecodeLossyF]
  cases hstep : utf8Step b rest with
  | mk c k =>
    simp only [hstep]
    congr 1
    exact utf8DecodeLossyF_fuel rest.length (rest.drop k).length (rest.drop k)
      (by simp [List.length_drop]) (le_refl _)

lemma utf8Step_enc1 (c : Nat) (h : c < 0x80) (tl : List Nat) :
    utf8Step c tl = (c, 0) := by
  rw [utf8Step.eq_def, if_pos h]

lemma utf8Step_enc2 (c : Nat) (h1 : 0x80 ≤ c) (h2 : c < 0x800) (tl : List Nat) :
    utf8Step (0xC0 + c / 64) ((0x80 + c % 64) :: tl) = (c, 1) := by
  rw [utf8Step.eq_def, if_neg (by omega), if_pos (by omega)]
  dsimp only
  rw [if_pos (by omega)]
  have hv : (0xC0 + c / 64 - 0xC0) * 64 + (0x80 + c % 64 - 0x80) = c := by omega
  rw [hv]

lemma utf8Step_enc3 (c : Nat) (h1 : 0x800 ≤ c) (h2 : c < 0x10000)
    (hs : ¬ (0xD800 ≤ c ∧ c < 0xE000)) (tl : List Nat) :
    utf8Step (0xE0 + c / 4096) ((0x80 + c / 64 % 64) :: ((0x80 + c % 64) :: tl)) = (c, 2) := by
  rw [utf8Step.eq_def, if_neg (by omega), if_neg (by omega), if_pos (by omega)]
  dsimp only
  rw [if_pos (by omega)]
  have hv : (0xE0 + c / 4096 - 0xE0) * 4096 + (0x80 + c / 64 % 64 - 0x80) * 64 +
      (0x80 + c % 64 - 0x80) = c := by omega
  rw [hv]

lemma utf8Step_enc4 (c : Nat) (h1 : 0x10000 ≤ c) (h2 : c < 0x110000) (tl : List Nat) :
    utf8Step (0xF0 + c / 0x40000)
      ((0x80 + c / 4096 % 64) :: ((0x80 + c / 64 % 64) :: ((0x80 + c % 64) :: tl))) = (c, 3) := by
  rw [utf8Step.eq_def, if_neg (by omega), if_neg (by omega), if_neg (by omega), if_pos (by omega)]
  dsimp only
  rw [if_pos (by omega)]
  have hv : (0xF0 + c / 0x40000 - 0xF0) * 0x40000 + (0x80 + c / 4096 % 64 - 0x80) * 4096 +
      (0x80 + c / 64 % 64 - 0x80) * 64 + (0x80 + c % 64 - 0x80) = c := by omega
  rw [hv]

lemma utf8DecodeLossy_encodeChar (c : Nat) (tl : List Nat) (h1 : c < 0x110000)
    (h2 : ¬ (0xD800 ≤ c ∧ c < 0xE000)) :
    utf8DecodeLossy (utf8EncodeChar c ++ tl) = c :: utf8DecodeLossy tl := by
  by_cases hc1 : c < 0x80
  · rw [utf8EncodeChar, if_pos hc1, List.singleton_append, utf8DecodeLossy_cons,
      utf8Step_enc1 c hc1]
    simp
  · by_cases hc2 : c < 0x800
    · rw [utf8EncodeChar, if_neg hc1, if_pos hc2]
      simp only [List.cons_append, List.nil_append]
      rw [utf8DecodeLossy_cons, utf8Step_enc2 c (by omega) hc2]
      simp
    · by_cases hc3 : c < 0x10000
      · rw [utf8EncodeChar, if_neg hc1, if_neg hc2, if_pos hc3]
        simp only [List.cons_append, List.nil_append]
        rw [utf8DecodeLossy_cons, utf8Step_enc3 c (by omega) hc3 h2]
        simp
      · rw [utf8EncodeChar, if_neg hc1, if_neg hc2, if_neg hc3]
        simp only [List.cons_append, List.nil_append]
        rw [utf8DecodeLossy_cons, utf8Step_enc4 c (by omega) h1]
        simp

lemma utf8_roundtrip (s : List Nat)
    (h : ∀ c ∈ s, c < 0x110000 ∧ ¬ (0xD800 ≤ c ∧ c < 0xE000)) :
    utf8DecodeLossy (utf8Encode s) = s := by
  induction s with
  | nil => rfl
  | cons c tl ih =>
    have henc : utf8Encode (c :: tl) = utf8EncodeChar c ++ utf8Encode tl := by
      simp [utf8Encode]
    rw [henc, utf8DecodeLossy_encodeChar c _ (h c (by simp)).1 (h c (by simp)).2,
      ih (fun x hx => h x (by simp [hx]))]

/-- `Entity.from_raw` on a well-shaped concatenation of field
encodings: every `split_at` succeeds and the result is the field-wise
decoding, guarded by the flags `unwrap`. -/
lemma from_raw_concat (hsb nameB szb sbb flb vdb : List Nat)
    (h1 : hsb.length = 4) (h2 : szb.length = 8) (h3 : sbb.length = 8)
    (h4 : flb.length = 4) (h5 : vdb.length = 4) (hn : nameB.length < 2 ^ 32) :
    Entity.from_raw
        (hsb ++ (leBytes 4 nameB.length ++ (nameB ++ (szb ++ (sbb ++ (flb ++ vdb)))))) =
      if 2 ≤ leVal flb then none
      else some ⟨utf8DecodeLossy nameB, leVal szb, leVal sbb, leVal flb, leVal vdb⟩ := by
  have hmod : nameB.length % 256 ^ 4 = nameB.length := by
    have h32 : (256 : Nat) ^ 4 = 2 ^ 32 := by norm_num
    rw [h32]
    exact Nat.mod_eq_of_lt hn
  simp only [Entity.from_raw]
  rw [List.drop_left' h1, List.take_left' (leBytes_length 4 nameB.length), leVal_leBytes,
    hmod, List.drop_left' (leBytes_length 4 nameB.length), List.take_left, List.drop_left,
    List.take_left' h2, List.drop_left' h2, List.take_left' h3, List.drop_left' h3,
    List.take_left' h4, List.drop_left' h4, List.take_of_length_le (le_of_eq h5)]
  split_ifs
  all_goals first
    | rfl
    | (exfalso; simp only [List.length_append, leBytes_length] at *; omega)

/-- A serialized record whose name field is the single byte 0xFF
(ill-formed UTF-8) and whose flags field is the valid DIRECTORY bit. -/
def C9lossy : List Nat :=
  leBytes 4 29 ++ (leBytes 4 1 ++ ([0xFF] ++ (leBytes 8 0 ++ (leBytes 8 2 ++
    (leBytes 4 1 ++ leBytes 4 0)))))

/-- C9: decoding a record whose flags field has any bit other than
DIRECTORY set does not return a reported error: the source's
`EntityFlags::from_bits(..).unwrap()` panics (modelled as `none`,
entity.rs:103-104).  Invalid UTF-8 in the name is decoded lossily to
U+FFFD and decoding succeeds (`C9lossy` carries the lone byte 0xFF as
its name and flags = DIRECTORY). -/
theorem C9_invalid_flags_panics (e : Entity)
    (hn : (utf8Encode e.name).length < 2 ^ 32)
    (hfl2 : 2 ≤ e.flags) (hfl32 : e.flags < 2 ^ 32) :
    Entity.from_raw e.as_raw = none ∧
      Entity.from_raw C9lossy = some ⟨[0xFFFD], 0, 2, 1, 0⟩ := by
  constructor
  · rw [Entity.as_raw]
    simp only [List.append_assoc]
    rw [from_raw_concat _ _ _ _ _ _ (leBytes_length 4 _) (leBytes_length 8 _)
      (leBytes_length 8 _) (leBytes_length 4 _) (leBytes_length 4 _) hn]
    have hv : leVal (leBytes 4 e.flags) = e.flags := by
      rw [leVal_leBytes]
      have h32 : (256 : Nat) ^ 4 = 2 ^ 32 := by norm_num
      rw [h32]
      exact Nat.mod_eq_of_lt hfl32
    simp only [hv]
    rw [if_pos hfl2]
  · decide

theorem C9_invalid_flags_panics_witness :
    Entity.from_raw (Entity.as_raw ⟨[], 0, 0, 2, 0⟩) = none ∧
      Entity.from_raw C9lossy = some ⟨[0xFFFD], 0, 2, 1, 0⟩ :=
  C9_invalid_flags_panics ⟨[], 0, 0, 2, 0⟩ (by decide) (by decide) (by decide)

/-- C10: for every entity with `vendor_data_size = 0`, a valid flags
bit pattern (flags < 2), a name of Unicode scalar values, and in-range
size/start_block fields, `from_raw (as_raw e)` returns an entity with
the same name, size, start_block, flags and vendor_data_size, and the
encoded slice has length exactly `fact_size = header_size + 4`. -/
theorem C10_entity_roundtrip (e : Entity)
    (hval : ∀ c ∈ e.name, c < 0x110000 ∧ ¬ (0xD800 ≤ c ∧ c < 0xE000))
    (hn : 28 + (utf8Encode e.name).length < 2 ^ 32)
    (hsz : e.size < 2 ^ 64) (hsb : e.start_block < 2 ^ 64)
    (hfl : e.flags < 2) (hvd : e.vendor_data_size = 0) :
    Entity.from_raw e.as_raw = some e ∧ e.as_raw.length = e.fact_size := by
  have h32 : (256 : Nat) ^ 4 = 2 ^ 32 := by norm_num
  have h64 : (256 : Nat) ^ 8 = 2 ^ 64 := by norm_num
  constructor
  · rw [Entity.as_raw]
    simp only [List.append_assoc]
    rw [from_raw_concat _ _ _ _ _ _ (leBytes_length 4 _) (leBytes_length 8 _)
      (leBytes_length 8 _) (leBytes_length 4 _) (leBytes_length 4 _)
      (show (utf8Encode e.name).length < 2 ^ 32 by omega)]
    have hvfl : leVal (leBytes 4 e.flags) = e.flags := by
      rw [leVal_leBytes, h32]
      exact Nat.mod_eq_of_lt (by omega)
    have hvsz : leVal (leBytes 8 e.size) = e.size := by
      rw [leVal_leBytes, h64]
      exact Nat.mod_eq_of_lt hsz
    have hvsb : leVal (leBytes 8 e.start_block) = e.start_block := by
      rw [leVal_leBytes, h64]
      exact Nat.mod_eq_of_lt hsb
    have hvvd : leVal (leBytes 4 e.vendor_data_size) = e.vendor_data_size := by
      rw [leVal_leBytes, h32, hvd, Nat.zero_mod]
    simp only [hvfl, hvsz, hvsb, hvvd]
    rw [if_neg (by omega), utf8_roundtrip e.name hval]
  · simp only [Entity.as_raw, List.length_append, leBytes_length, Entity.fact_size,
      Entity.header_size, hvd]
    rw [Nat.mod_eq_of_lt (by omega)]
    omega

theorem C10_entity_roundtrip_witness :
    Entity.from_raw (Entity.as_raw ⟨[102], 3, 2, 1, 0⟩) = some ⟨[102], 3, 2, 1, 0⟩ ∧
      (Entity.as_raw ⟨[102], 3, 2, 1, 0⟩).length = Entity.fact_size ⟨[102], 3, 2, 1, 0⟩ :=
  C10_entity_roundtrip ⟨[102], 3, 2, 1, 0⟩ (by decide) (by decide) (by decide) (by decide)
    (by decide) rfl

end NoctFS

namespace NoctFS

/-! ## Boot sector, `format`, and `NoctFS::new` (claim C6) -/

/-- `FILESYSTEM_CODENAME = b"NoctFS__"` (lib.rs:25). -/
def FILESYSTEM_CODENAME : List Nat := [0x4E, 0x6F, 0x63, 0x74, 0x46, 0x53, 0x5F, 0x5F]

/-- `BootSector` (src/bootsector.rs).  The packed struct occupies
bytes 3..29 of the 512-byte boot sector: codename at 3..11,
sector_size (u16) at 11..13, block_size (u32) at 13..17,
block_map_count (u32) at 17..21, first_root_entity_lba (u64) at
21..29. -/
structure BootSector where
  filesystem_codename : List Nat
  sector_size : Nat
  block_size : Nat
  block_map_count : Nat
  first_root_entity_lba : Nat
  deriving DecidableEq

/-- `BootSector::with_data` (bootsector.rs:18-32). -/
def BootSector.with_data (device_size sector_size block_size : Nat) : BootSector :=
  let block_map_count := device_size / block_size
  let first_root_entry := sector_size + block_map_count
  { filesystem_codename := FILESYSTEM_CODENAME
    sector_size := sector_size
    block_size := block_size
    block_map_count := block_map_count % 2 ^ 32
    first_root_entity_lba := (first_root_entry / sector_size) % 2 ^ 64 }

/-- The 26 little-endian bytes of the packed struct, as `as_raw`'s
unsafe byte view emits them (valid when the codename has 8 bytes). -/
def BootSector.structBytes (b : BootSector) : List Nat :=
  b.filesystem_codename ++ (leBytes 2 b.sector_size ++ (leBytes 4 b.block_size ++
    (leBytes 4 b.block_map_count ++ leBytes 8 b.first_root_entity_lba)))

/-- `BootSector::as_raw`: a copy of the 512-byte `BOOTCODE` blob with
`sector[3..29]` overwritten by the struct bytes.  The blob
(static/bootcode.bin) is a parameter. -/
def BootSector.as_raw (bootcode : List Nat) (b : BootSector) : List Nat :=
  bootcode.take 3 ++ (b.structBytes ++ bootcode.drop 29)

/-- `BootSector::from_raw`: the unsafe packed read of the struct from
bytes 3..29 of the sector (here read directly off the device map,
as `NoctFS::new` reads the first 512 device bytes). -/
def BootSector.from_raw (data : Nat → Nat) : BootSector :=
  { filesystem_codename := devRead data 3 8
    sector_size := leVal (devRead data 11 2)
    block_size := leVal (devRead data 13 4)
    block_map_count := leVal (devRead data 17 4)
    first_root_entity_lba := leVal (devRead data 21 8) }

/-- `NoctFSError` (lib.rs:29-33); the `OS` payload is dropped. -/
inductive NoctFSError where
  | SignatureNotValid
  | OS
  deriving DecidableEq

/-- `NoctFS::new` (lib.rs:41-54): read the boot sector and fail with
`SignatureNotValid` when the codename field differs from the magic. -/
def NoctFS_new (dev : Nat → Nat) : Except NoctFSError BootSector :=
  let bootsector := BootSector.from_raw dev
  if bootsector.filesystem_codename ≠ FILESYSTEM_CODENAME then
    Except.error NoctFSError.SignatureNotValid
  else Except.ok bootsector

/-- The boot sector image `format` writes at device offset 0
(lib.rs:56-75): `with_data(size, 512, block_size)` with the root
entity field then set to 1.  (lib.rs:70 spells the field
`first_root_entity_block`; the struct's only root-entity field is
`first_root_entity_lba`, and the assignment is modelled on it.)
`format`'s later writes (chainmap clear, 1MB wipe, root directory) all
land at offsets ≥ sector_size = 512, so after `format` the first 512
device bytes equal this image. -/
def format_boot_image (bootcode : List Nat) (device_size block_size : Nat) : List Nat :=
  BootSector.as_raw bootcode
    { BootSector.with_data device_size 512 block_size with first_root_entity_lba := 1 }

/-- C6: on any device whose first 512 bytes are the image `format`
wrote (any 512-byte bootcode blob, any geometry), `NoctFS::new`
succeeds; on the all-zero device it fails with `SignatureNotValid`,
because the 8 bytes at offset 3 differ from `b"NoctFS__"`. -/
theorem C6_format_then_mount (bootcode : List Nat) (device_size block_size : Nat)
    (hbc : bootcode.length = 512) (dev' : Nat → Nat)
    (hdev : ∀ i, i < 512 → dev' i = (format_boot_image bootcode device_size block_size).getD i 0) :
    (∃ b, NoctFS_new dev' = Except.ok b) ∧
      NoctFS_new (fun _ => 0) = Except.error NoctFSError.SignatureNotValid := by
  have h3 : (bootcode.take 3).length = 3 := by
    rw [List.length_take, hbc]
    omega
  have hj : ∀ j, j < 8 → dev' (3 + j) = FILESYSTEM_CODENAME.getD j 0 := by
    intro j hj8
    rw [hdev (3 + j) (by omega), format_boot_image, BootSector.as_raw,
      List.getD_append_right _ _ _ _ (by omega), h3]
    have hjj : 3 + j - 3 = j := by omega
    rw [hjj, BootSector.structBytes]
    have hrec : ({ BootSector.with_data device_size 512 block_size with
        first_root_entity_lba := 1 } : BootSector).filesystem_codename = FILESYSTEM_CODENAME := rfl
    rw [hrec, List.append_assoc,
      List.getD_append FILESYSTEM_CODENAME _ 0 j (by simp [FILESYSTEM_CODENAME]; omega)]
  have hcn : (BootSector.from_raw dev').filesystem_codename = FILESYSTEM_CODENAME := by
    show devRead dev' 3 8 = FILESYSTEM_CODENAME
    have e0 := hj 0 (by omega)
    have e1 := hj 1 (by omega)
    have e2 := hj 2 (by omega)
    have e3 := hj 3 (by omega)
    have e4 := hj 4 (by omega)
    have e5 := hj 5 (by omega)
    have e6 := hj 6 (by omega)
    have e7 := hj 7 (by omega)
    simp only [FILESYSTEM_CODENAME] at e0 e1 e2 e3 e4 e5 e6 e7
    show [dev' 3, dev' 4, dev' 5, dev' 6, dev' 7, dev' 8, dev' 9, dev' 10] =
      FILESYSTEM_CODENAME
    norm_num at e0 e1 e2 e3 e4 e5 e6 e7
    rw [e0, e1, e2, e3, e4, e5, e6, e7]
    rfl
  refine ⟨⟨BootSector.from_raw dev', ?_⟩, ?_⟩
  · simp only [NoctFS_new]
    rw [if_neg (not_not_intro hcn)]
  · rfl

theorem C6_format_then_mount_witness :
    (∃ b, NoctFS_new
        (fun i => (format_boot_image (List.replicate 512 0) 4096 512).getD i 0) =
      Except.ok b) ∧
      NoctFS_new (fun _ => 0) = Except.error NoctFSError.SignatureNotValid :=
  C6_format_then_mount (List.replicate 512 0) 4096 512 (by rw [List.length_replicate]) _
    (fun i _ => rfl)

end NoctFS
